import Mathlib

/-!
Verification development for the Bitcask storage engine in `src/storage/bitcask.rs`.

The engine state (KeyDir, per-segment statistics, the on-disk directory of data
and hint files, the active segment id) is embedded as a pure Lean structure and
the writer/reader/merge/recovery operations of the source are translated into
pure functions over that structure.  The concurrent maps of the source
(`DashMap`) are embedded as association lists with unique keys; the on-disk
record framing lives in the `log`/`bufio` submodules which are not part of the
given sources, so the serialized length of a record is abstracted as a positive
function `encLen` of the record (modelled from the spec, section 4.1: every
record costs `header + payload` bytes on disk).
-/

namespace Bitcask

section Assoc

variable {α β : Type} [DecidableEq α]

/-- Lookup in an association list: the embedding of `DashMap::get`. -/
def alookup : List (α × β) → α → Option β
  | [], _ => none
  | (a, b) :: rest, x => if a = x then some b else alookup rest x

/-- Upsert returning the previous binding: the embedding of `DashMap::insert`. -/
def ainsert : List (α × β) → α → β → List (α × β) × Option β
  | [], a, b => ([(a, b)], none)
  | (a', b') :: rest, a, b =>
    if a' = a then ((a, b) :: rest, some b')
    else
      let p := ainsert rest a b
      ((a', b') :: p.1, p.2)

/-- Removal returning the removed binding: the embedding of `DashMap::remove`. -/
def aremove : List (α × β) → α → List (α × β) × Option β
  | [], _ => ([], none)
  | (a', b') :: rest, a =>
    if a' = a then (rest, some b')
    else
      let p := aremove rest a
      ((a', b') :: p.1, p.2)

/-- The embedding of `DashMap::entry(k).or_default()` followed by a mutation. -/
def amodify (m : List (α × β)) (a : α) (d : β) (f : β → β) : List (α × β) :=
  match m with
  | [] => [(a, f d)]
  | (a', b') :: rest =>
    if a' = a then (a', f b') :: rest
    else (a', b') :: amodify rest a d f

/-- Remove a collection of keys, one `DashMap::remove` per key. -/
def aremoveAll (m : List (α × β)) (ids : List α) : List (α × β) :=
  ids.foldl (fun m i => (aremove m i).1) m

end Assoc

/-- The embedding of `struct KeyDirEntry`. -/
structure KeyDirEntry where
  fileid : Nat
  len : Nat
  pos : Nat
  tstamp : Int
deriving DecidableEq

/-- The embedding of `struct LogStatistics`. -/
structure LogStatistics where
  live_keys : Nat
  dead_keys : Nat
  dead_bytes : Nat
deriving DecidableEq

/-- The `Default` of `LogStatistics` derived in the source: all counters zero. -/
def LogStatistics.init : LogStatistics := ⟨0, 0, 0⟩

/-- The embedding of `LogStatistics::add_live`. -/
def LogStatistics.add_live (s : LogStatistics) : LogStatistics :=
  { s with live_keys := s.live_keys + 1 }

/-- The embedding of `LogStatistics::add_dead`. -/
def LogStatistics.add_dead (s : LogStatistics) (nbytes : Nat) : LogStatistics :=
  { s with dead_keys := s.dead_keys + 1, dead_bytes := s.dead_bytes + nbytes }

/-- The embedding of `LogStatistics::overwrite`.  The source decrements the
`u64` counter `live_keys`; in every reachable state the counter is positive when
`overwrite` runs (it counts the KeyDir entries of the segment, and the caller
just witnessed one), so truncated subtraction agrees with the source. -/
def LogStatistics.overwrite (s : LogStatistics) (nbytes : Nat) : LogStatistics :=
  { live_keys := s.live_keys - 1, dead_keys := s.dead_keys + 1,
    dead_bytes := s.dead_bytes + nbytes }

/-- The embedding of `LogStatistics::fragmentation`, over exact rationals. -/
def LogStatistics.fragmentation (s : LogStatistics) : ℚ :=
  if s.dead_keys = 0 then 0
  else (s.dead_keys : ℚ) / ((s.dead_keys : ℚ) + (s.live_keys : ℚ))

/-- The embedding of `config::MergeThresholds`. -/
structure MergeThresholds where
  fragmentation : ℚ
  dead_bytes : Nat
  small_file : Nat

/-- The embedding of `config::MergeStrategy`; the wall-clock window, the check
interval and the jitter only schedule the background task and are not part of
any verified claim, so they are omitted. -/
structure MergeStrategy where
  enable : Bool
  thresholds : MergeThresholds

/-- The embedding of `config::Config`. -/
structure Config where
  concurrency : Nat
  max_file_size : Nat
  merge : MergeStrategy

/-- The embedding of `struct DataFileEntry`. -/
structure DataFileEntry (K V : Type) where
  tstamp : Int
  key : K
  value : Option V
deriving DecidableEq

/-- The embedding of `struct HintFileEntry`. -/
structure HintFileEntry (K : Type) where
  tstamp : Int
  len : Nat
  pos : Nat
  key : K
deriving DecidableEq

/-- The state of one engine instance: the shared `Context` (KeyDir, statistics,
merged set), the writer state (`active_fileid`, `written_bytes`), and the
directory contents (data files and hint files, each an association from segment
id to its sequence of records).  The ghost field `used` records, in
chronological order, every segment id a file was ever created for. -/
structure Engine (K V : Type) where
  keydir : List (K × KeyDirEntry)
  stats : List (Nat × LogStatistics)
  merged : List Nat
  disk : List (Nat × List (DataFileEntry K V))
  hints : List (Nat × List (HintFileEntry K))
  active_fileid : Nat
  written_bytes : Nat
  used : List Nat

section Ops

variable {K V : Type} [DecidableEq K] [DecidableEq V]
variable (encLen : DataFileEntry K V → Nat)

/-- Total number of bytes in a data file: the sum of the on-disk lengths of its
records; the embedding of `fs::metadata(..).len()`. -/
def segSize (seg : List (DataFileEntry K V)) : Nat :=
  (seg.map encLen).sum

/-- Random access into a data file, the embedding of `LogDir::get(..).at(len, pos)`
(modelled from the spec, section 4.1: the record at byte offset `pos` is decoded
when `pos` is a record boundary and `len` is its framed length; any other access
is undefined and embedded as `none`). -/
def readAt : List (DataFileEntry K V) → Nat → Nat → Option (DataFileEntry K V)
  | [], _, _ => none
  | r :: rs, len, pos =>
    if pos = 0 then (if encLen r = len then some r else none)
    else if pos < encLen r then none
    else readAt rs len (pos - encLen r)

/-- Append a record to the active data file, returning the new state together
with the index `(pos, len)` reported by `LogWriter::append`. -/
def appendActive (st : Engine K V) (rec : DataFileEntry K V) :
    Engine K V × Nat × Nat :=
  let seg := (alookup st.disk st.active_fileid).getD []
  let pos := segSize encLen seg
  ({ st with disk := (ainsert st.disk st.active_fileid (seg ++ [rec])).1 },
    pos, encLen rec)

/-- The embedding of `Writer::new_active_datafile`: bump the active file id,
create the fresh (empty) data file, reset the written-bytes counter. -/
def new_active_datafile (st : Engine K V) (fileid : Nat) : Engine K V :=
  { st with active_fileid := fileid,
            disk := (ainsert st.disk fileid []).1,
            written_bytes := 0,
            used := st.used ++ [fileid] }

/-- The embedding of `Writer::write`: append the record, build the KeyDir entry
for it, account the bytes, update the active file statistics, and roll over if
the active file exceeds `max_file_size`. -/
def write (cfg : Config) (st : Engine K V) (tstamp : Int) (key : K)
    (value : Option V) : Engine K V × KeyDirEntry :=
  let datafile_entry : DataFileEntry K V := ⟨tstamp, key, value⟩
  let p := appendActive encLen st datafile_entry
  let st1 := p.1
  let pos := p.2.1
  let len := p.2.2
  let keydir_entry : KeyDirEntry := ⟨st.active_fileid, len, pos, tstamp⟩
  let st2 := { st1 with written_bytes := st1.written_bytes + len }
  let stats3 :=
    amodify st2.stats st.active_fileid LogStatistics.init
      (fun s => if value.isSome then s.add_live else s.add_dead len)
  let st3 := { st2 with stats := stats3 }
  let st4 := if st3.written_bytes > cfg.max_file_size
             then new_active_datafile st3 (st3.active_fileid + 1) else st3
  (st4, keydir_entry)

/-- The embedding of `Writer::put`. -/
def put (cfg : Config) (st : Engine K V) (tstamp : Int) (key : K) (value : V) :
    Engine K V :=
  let p := write encLen cfg st tstamp key (some value)
  let st1 := p.1
  let q := ainsert st1.keydir key p.2
  match q.2 with
  | some prev =>
    let stats2 :=
      amodify st1.stats prev.fileid LogStatistics.init (fun s => s.overwrite prev.len)
    { st1 with keydir := q.1, stats := stats2 }
  | none => { st1 with keydir := q.1 }

/-- The embedding of `Writer::delete`, returning the new state and the boolean
result. -/
def delete (cfg : Config) (st : Engine K V) (tstamp : Int) (key : K) :
    Engine K V × Bool :=
  let p := write encLen cfg st tstamp key none
  let st1 := p.1
  let q := aremove st1.keydir key
  match q.2 with
  | some prev =>
    let stats2 :=
      amodify st1.stats prev.fileid LogStatistics.init (fun s => s.overwrite prev.len)
    ({ st1 with keydir := q.1, stats := stats2 }, true)
  | none => ({ st1 with keydir := q.1 }, false)

/-- The embedding of `Reader::get`: look the key up in the KeyDir and decode
the record at the indicated location (the reader-cache eviction against the
merged set only manages file descriptors and does not affect the result). -/
def get (st : Engine K V) (key : K) : Option V :=
  match alookup st.keydir key with
  | none => none
  | some e =>
    match alookup st.disk e.fileid with
    | none => none
    | some seg =>
      match readAt encLen seg e.len e.pos with
      | none => none
      | some rec => rec.value

/-- One step of the loop body of `Context::fileids_to_merge`: a data file is
included when its dead bytes exceed the dead-bytes threshold, or its
fragmentation exceeds the fragmentation threshold, or its size is below the
small-file threshold. -/
def qualifiesB (cfg : Config) (s : LogStatistics) (fsize : Nat) : Bool :=
  decide (s.dead_bytes > cfg.merge.thresholds.dead_bytes) ||
  decide (s.fragmentation > cfg.merge.thresholds.fragmentation) ||
  decide (fsize < cfg.merge.thresholds.small_file)

/-- The iteration over the statistics map inside `Context::fileids_to_merge`;
`fs::metadata` fails when a data file is missing, which aborts the merge. -/
def fileidsToMergeGo (cfg : Config) (disk : List (Nat × List (DataFileEntry K V))) :
    List (Nat × LogStatistics) → Except Unit (List Nat)
  | [] => .ok []
  | (fileid, s) :: rest =>
    match alookup disk fileid with
    | none => .error ()
    | some seg =>
      match fileidsToMergeGo cfg disk rest with
      | .error e => .error e
      | .ok ids =>
        if qualifiesB cfg s (segSize encLen seg) then .ok (fileid :: ids)
        else .ok ids

/-- The embedding of `Context::fileids_to_merge`. -/
def fileids_to_merge (cfg : Config) (st : Engine K V) : Except Unit (List Nat) :=
  fileidsToMergeGo encLen cfg st.disk st.stats

/-- The loop state of `Writer::merge`: the current merge file id, the position
inside it, and the evolving directory, statistics and ghost allocation list. -/
structure MergeState (K V : Type) where
  fileid : Nat
  pos : Nat
  disk : List (Nat × List (DataFileEntry K V))
  hints : List (Nat × List (HintFileEntry K))
  stats : List (Nat × LogStatistics)
  used : List Nat

/-- The body of the merge loop for one selected entry, given the record `rec`
that `copy_raw` copies: append the raw record to the current merge data file,
build the repointed KeyDir entry, count it live for the merge file, append the
hint record, and switch to the next merge file when the current one exceeds
`max_file_size`.  Returns the new loop state and the repointed entry. -/
def mergeAppend (cfg : Config) (acc : MergeState K V) (k : K) (e : KeyDirEntry)
    (rec : DataFileEntry K V) : MergeState K V × KeyDirEntry :=
  let nbytes := e.len
  let mergeSeg := (alookup acc.disk acc.fileid).getD []
  let hintSeg := (alookup acc.hints acc.fileid).getD []
  let hintRec : HintFileEntry K := ⟨e.tstamp, nbytes, acc.pos, k⟩
  let e2 : KeyDirEntry := ⟨acc.fileid, nbytes, acc.pos, e.tstamp⟩
  let acc2 : MergeState K V :=
    { acc with
      disk := (ainsert acc.disk acc.fileid (mergeSeg ++ [rec])).1,
      hints := (ainsert acc.hints acc.fileid (hintSeg ++ [hintRec])).1,
      stats := amodify acc.stats acc.fileid LogStatistics.init
        LogStatistics.add_live }
  let pos2 := acc.pos + nbytes
  let acc3 : MergeState K V :=
    if pos2 > cfg.max_file_size then
      { acc2 with
        fileid := acc.fileid + 1, pos := 0,
        disk := (ainsert acc2.disk (acc.fileid + 1) []).1,
        hints := (ainsert acc2.hints (acc.fileid + 1) []).1,
        used := acc2.used ++ [acc.fileid + 1] }
    else { acc2 with pos := pos2 }
  (acc3, e2)

/-- The iteration of `Writer::merge` over the KeyDir entries whose file id is in
the merge set: copy the raw record into the current merge data file, repoint the
entry, count it live for the merge file, append the hint record, and switch to
the next merge file when the current one exceeds `max_file_size`.  A dangling
entry (whose location does not decode) aborts with an error. -/
def mergeLoop (cfg : Config) (S : List Nat) :
    List (K × KeyDirEntry) → MergeState K V →
    Except Unit (List (K × KeyDirEntry) × MergeState K V)
  | [], acc => .ok ([], acc)
  | (k, e) :: rest, acc =>
    if e.fileid ∈ S then
      match alookup acc.disk e.fileid with
      | none => .error ()
      | some srcSeg =>
        match readAt encLen srcSeg e.len e.pos with
        | none => .error ()
        | some rec =>
          let p := mergeAppend cfg acc k e rec
          match mergeLoop cfg S rest p.1 with
          | .error err => .error err
          | .ok (kd, accF) => .ok ((k, p.2) :: kd, accF)
    else
      match mergeLoop cfg S rest acc with
      | .error err => .error err
      | .ok (kd, accF) => .ok ((k, e) :: kd, accF)

/-- The embedding of `Writer::merge`: select the merge set, stream the live
entries of the selected files into fresh merge data/hint files starting at
`active_fileid + 1`, record the merged ids, delete the merged files and their
statistics, and roll the active file over past the merge output. -/
def merge (cfg : Config) (st : Engine K V) : Except Unit (Engine K V) :=
  let min_merge_fileid := st.active_fileid + 1
  match fileids_to_merge encLen cfg st with
  | .error e => .error e
  | .ok S =>
    let acc0 : MergeState K V :=
      { fileid := min_merge_fileid, pos := 0,
        disk := (ainsert st.disk min_merge_fileid []).1,
        hints := (ainsert st.hints min_merge_fileid []).1,
        stats := st.stats,
        used := st.used ++ [min_merge_fileid] }
    match mergeLoop encLen cfg S st.keydir acc0 with
    | .error e => .error e
    | .ok (kd, acc) =>
      let merged2 := st.merged ++ S.filter (fun i => decide (i ∉ st.merged))
      let st1 : Engine K V :=
        { st with keydir := kd,
                  merged := merged2,
                  stats := aremoveAll acc.stats S,
                  disk := aremoveAll acc.disk S,
                  hints := aremoveAll acc.hints S,
                  used := acc.used }
      .ok (new_active_datafile st1 (acc.fileid + 1))

/-- The operations a client can issue through the handle, plus the merge the
background task performs while holding the writer lock. -/
inductive Op (K V : Type) where
  | putOp (tstamp : Int) (key : K) (value : V)
  | delOp (tstamp : Int) (key : K)
  | mergeOp
deriving DecidableEq

/-- One serialized writer operation on the engine state. -/
def step (cfg : Config) (st : Engine K V) : Op K V → Engine K V
  | .putOp ts k v => put encLen cfg st ts k v
  | .delOp ts k => (delete encLen cfg st ts k).1
  | .mergeOp =>
    match merge encLen cfg st with
    | .ok st2 => st2
    | .error _ => st

/-- The state right after `Bitcask::open` on an empty directory: empty KeyDir
and statistics, active file id 0, the fresh active data file created. -/
def init : Engine K V :=
  { keydir := [], stats := [], merged := [], disk := [(0, [])], hints := [],
    active_fileid := 0, written_bytes := 0, used := [0] }

/-- Run a sequence of operations from a freshly opened empty directory. -/
def run (cfg : Config) (ops : List (Op K V)) : Engine K V :=
  ops.foldl (step encLen cfg) init

/-- An operation is a client put or delete (as opposed to a background merge). -/
def isPutDel : Op K V → Prop
  | .putOp _ _ _ => True
  | .delOp _ _ => True
  | .mergeOp => False

/-- An operation does not touch the given key. -/
def avoidsKey (k : K) : Op K V → Prop
  | .putOp _ k2 _ => k2 ≠ k
  | .delOp _ k2 => k2 ≠ k
  | .mergeOp => True

/-- The directory contents an engine leaves behind when it is dropped (the
buffered writers are flushed on drop). -/
structure Dir (K V : Type) where
  disk : List (Nat × List (DataFileEntry K V))
  hints : List (Nat × List (HintFileEntry K))

/-- Closing the engine keeps only the on-disk state. -/
def close (st : Engine K V) : Dir K V := ⟨st.disk, st.hints⟩

/-- Modelled from the spec: `utils::sorted_fileids` is not under `src/`; per
section 4.5 recovery enumerates the segment ids found in the directory and
processes them in ascending order.  The ids are produced sorted and without
duplicates by filtering an initial range. -/
def sorted_fileids (d : Dir K V) : List Nat :=
  let ids := d.disk.map Prod.fst ++ d.hints.map Prod.fst
  (List.range (ids.foldr max 0 + 1)).filter (fun i => ids.contains i)

/-- The embedding of `populate_keydir_with_hintfile` (hint files always contain
live keys). -/
def populate_keydir_with_hintfile (fileid : Nat) (entries : List (HintFileEntry K))
    (kd : List (K × KeyDirEntry)) (stm : List (Nat × LogStatistics)) :
    List (K × KeyDirEntry) × List (Nat × LogStatistics) :=
  entries.foldl
    (fun acc e =>
      let keydir_entry : KeyDirEntry := ⟨fileid, e.len, e.pos, e.tstamp⟩
      let stm1 := amodify acc.2 fileid LogStatistics.init LogStatistics.add_live
      let q := ainsert acc.1 e.key keydir_entry
      match q.2 with
      | some prev =>
        (q.1, amodify stm1 prev.fileid LogStatistics.init
          (fun s => s.overwrite prev.len))
      | none => (q.1, stm1))
    (kd, stm)

/-- The embedding of `populate_keydir_with_datafile`: replay the records of a
data file in order; a tombstone only counts a dead record, a present value is
inserted into the KeyDir. -/
def populate_keydir_with_datafile (fileid : Nat) (recs : List (DataFileEntry K V))
    (kd : List (K × KeyDirEntry)) (stm : List (Nat × LogStatistics)) :
    List (K × KeyDirEntry) × List (Nat × LogStatistics) :=
  let out :=
    recs.foldl
      (fun acc rec =>
        let len := encLen rec
        match rec.value with
        | none =>
          (acc.1, amodify acc.2.1 fileid LogStatistics.init
            (fun s => s.add_dead len), acc.2.2 + len)
        | some _ =>
          let keydir_entry : KeyDirEntry := ⟨fileid, len, acc.2.2, rec.tstamp⟩
          let stm1 := amodify acc.2.1 fileid LogStatistics.init LogStatistics.add_live
          let q := ainsert acc.1 rec.key keydir_entry
          match q.2 with
          | some prev =>
            (q.1, amodify stm1 prev.fileid LogStatistics.init
              (fun s => s.overwrite prev.len), acc.2.2 + len)
          | none => (q.1, stm1, acc.2.2 + len))
      (kd, stm, 0)
  (out.1, out.2.1)

/-- The in-loop update of the running maximum file id in `rebuild_storage`. -/
def maxStep (acc : Option Nat) (fileid : Nat) : Option Nat :=
  match acc with
  | none => some fileid
  | some m => some (if fileid > m then fileid else m)

/-- The body of the recovery loop of `rebuild_storage`: fold the maximum id and
populate the maps from the hint file, falling back to the data file when the
hint file is absent (a segment id with neither file cannot be produced by the
directory scan, so that branch leaves the maps unchanged where the source
propagates the I/O error). -/
def rebuildStep (d : Dir K V)
    (acc : List (K × KeyDirEntry) × List (Nat × LogStatistics) × Option Nat)
    (fileid : Nat) :
    List (K × KeyDirEntry) × List (Nat × LogStatistics) × Option Nat :=
  let maxid := maxStep acc.2.2 fileid
  match alookup d.hints fileid with
  | some hentries =>
    let p := populate_keydir_with_hintfile fileid hentries acc.1 acc.2.1
    (p.1, p.2, maxid)
  | none =>
    match alookup d.disk fileid with
    | some recs =>
      let p := populate_keydir_with_datafile encLen fileid recs acc.1 acc.2.1
      (p.1, p.2, maxid)
    | none => (acc.1, acc.2.1, maxid)

/-- The embedding of `rebuild_storage`: process every segment id found in the
directory in ascending order; the new active id is the maximum plus one, or 0
for an empty directory. -/
def rebuild_storage (d : Dir K V) :
    List (K × KeyDirEntry) × List (Nat × LogStatistics) × Nat :=
  let out :=
    (sorted_fileids d).foldl (rebuildStep encLen d)
      (([] : List (K × KeyDirEntry)), ([] : List (Nat × LogStatistics)),
        (none : Option Nat))
  (out.1, out.2.1,
    match out.2.2 with
    | none => 0
    | some m => m + 1)

/-- The embedding of `Bitcask::open` on an existing directory: rebuild the
KeyDir and statistics, then create the writer with a fresh active data file. -/
def reopen (d : Dir K V) : Engine K V :=
  let r := rebuild_storage encLen d
  { keydir := r.1, stats := r.2.1, merged := [],
    disk := (ainsert d.disk r.2.2 []).1, hints := d.hints,
    active_fileid := r.2.2, written_bytes := 0, used := [r.2.2] }

/-- The embedding of `Writer::write` with the outcome of the disk append made
explicit: `LogWriter::append` is the first effect of `write`, and when it fails
the `?` operator propagates the error before anything else runs. -/
def write_result (cfg : Config) (st : Engine K V) (tstamp : Int) (key : K)
    (value : Option V) (appendOk : Bool) :
    Engine K V × Except Unit KeyDirEntry :=
  if appendOk then
    let p := write encLen cfg st tstamp key value
    (p.1, .ok p.2)
  else (st, .error ())

/-- The embedding of `Writer::put` over `write_result`: the KeyDir insert runs
only after the disk append succeeded. -/
def put_result (cfg : Config) (st : Engine K V) (tstamp : Int) (key : K)
    (value : V) (appendOk : Bool) : Engine K V × Except Unit Unit :=
  match write_result encLen cfg st tstamp key (some value) appendOk with
  | (st0, .error e) => (st0, .error e)
  | (st1, .ok keydir_entry) =>
    let q := ainsert st1.keydir key keydir_entry
    match q.2 with
    | some prev =>
      let stats2 :=
        amodify st1.stats prev.fileid LogStatistics.init (fun s => s.overwrite prev.len)
      ({ st1 with keydir := q.1, stats := stats2 }, .ok ())
    | none => ({ st1 with keydir := q.1 }, .ok ())

/-- The embedding of `Writer::delete` over `write_result`: the KeyDir removal
runs only after the tombstone reached the log. -/
def delete_result (cfg : Config) (st : Engine K V) (tstamp : Int) (key : K)
    (appendOk : Bool) : Engine K V × Except Unit Bool :=
  match write_result encLen cfg st tstamp key none appendOk with
  | (st0, .error e) => (st0, .error e)
  | (st1, .ok _) =>
    let q := aremove st1.keydir key
    match q.2 with
    | some prev =>
      let stats2 :=
        amodify st1.stats prev.fileid LogStatistics.init (fun s => s.overwrite prev.len)
      ({ st1 with keydir := q.1, stats := stats2 }, .ok true)
    | none => ({ st1 with keydir := q.1 }, .ok false)

end Ops

/-- The capacity of the reader pool built in `Bitcask::open`: `concurrency`
when it is positive, otherwise `concurrency + 1` (that is, one); `open` then
fills the pool with exactly `capacity` reader contexts. -/
def reader_pool_capacity (cfg : Config) : Nat :=
  if cfg.concurrency > 0 then cfg.concurrency else cfg.concurrency + 1

/-- Total live keys summed over all segment statistics. -/
def totalLive (m : List (Nat × LogStatistics)) : Nat :=
  (m.map (fun p => p.2.live_keys)).sum

/-- Total dead keys summed over all segment statistics. -/
def totalDead (m : List (Nat × LogStatistics)) : Nat :=
  (m.map (fun p => p.2.dead_keys)).sum

/-- Total dead bytes summed over all segment statistics. -/
def totalDeadBytes (m : List (Nat × LogStatistics)) : Nat :=
  (m.map (fun p => p.2.dead_bytes)).sum

/-- A concrete record-length function for witnesses: every record costs one
byte. -/
def encLenC : DataFileEntry Nat Nat → Nat := fun _ => 1

/-- A concrete configuration for witnesses: huge rollover limit, merge
thresholds that select nothing. -/
def cfgC : Config :=
  { concurrency := 1, max_file_size := 1000000,
    merge := { enable := true,
               thresholds := { fragmentation := 1, dead_bytes := 1000000,
                               small_file := 0 } } }

/-- A concrete configuration whose small-file threshold selects every file. -/
def cfgSmall : Config :=
  { concurrency := 1, max_file_size := 1000000,
    merge := { enable := true,
               thresholds := { fragmentation := 1, dead_bytes := 1000000,
                               small_file := 100 } } }

/-- A concrete configuration that rolls the active file over after every write
(zero size limit) and whose small-file threshold selects every file. -/
def cfgTiny : Config :=
  { concurrency := 1, max_file_size := 0,
    merge := { enable := true,
               thresholds := { fragmentation := 1, dead_bytes := 1000000,
                               small_file := 100 } } }

/-- The engine state after `put(k,v1); put(k,v2); delete(k)` on key 1 with
values 10 and 11, starting from an empty directory. -/
def stC2 : Engine Nat Nat :=
  run encLenC cfgC [.putOp 0 1 10, .putOp 0 1 11, .delOp 0 1]

/-- The engine state after a single put, under the small-file configuration. -/
def stC5 : Engine Nat Nat := run encLenC cfgSmall [.putOp 0 5 7]

section Validity

variable {K V : Type} [DecidableEq K] [DecidableEq V]
variable (encLen : DataFileEntry K V → Nat)

/-- Read a record at a location of the directory: find the data file, then the
record inside it. -/
def readAtDisk (disk : List (Nat × List (DataFileEntry K V))) (f len pos : Nat) :
    Option (DataFileEntry K V) :=
  readAt encLen ((alookup disk f).getD []) len pos

/-- Number of KeyDir entries pointing at file `f`. -/
def liveCount (kd : List (K × KeyDirEntry)) (f : Nat) : Nat :=
  kd.countP (fun p => p.2.fileid == f)

/-- The live-keys counter the statistics map records for file `f` (absent
entries count as the default, zero). -/
def statLive (stm : List (Nat × LogStatistics)) (f : Nat) : Nat :=
  ((alookup stm f).getD LogStatistics.init).live_keys

/-- A KeyDir entry is backed by a decodable record on disk whose key matches
and whose value is present — the data-model invariant of the spec. -/
def EntryOk (disk : List (Nat × List (DataFileEntry K V))) (k : K)
    (e : KeyDirEntry) : Prop :=
  ∃ rec, readAtDisk encLen disk e.fileid e.len e.pos = some rec ∧
    rec.key = k ∧ rec.value.isSome

/-- The structural part of the engine invariant: unique map keys, file ids
bounded by the active id, statistics keys backed by data files, every KeyDir
entry backed by a live record, and the ghost allocation list strictly
increasing and bounded. -/
structure ValidCore (st : Engine K V) : Prop where
  kd_nodup : (st.keydir.map Prod.fst).Nodup
  stats_nodup : (st.stats.map Prod.fst).Nodup
  disk_nodup : (st.disk.map Prod.fst).Nodup
  hints_nodup : (st.hints.map Prod.fst).Nodup
  disk_bound : ∀ f ∈ st.disk.map Prod.fst, f ≤ st.active_fileid
  hints_bound : ∀ f ∈ st.hints.map Prod.fst, f ≤ st.active_fileid
  stats_sub : ∀ f ∈ st.stats.map Prod.fst, f ∈ st.disk.map Prod.fst
  entries_ok : ∀ p ∈ st.keydir, EntryOk encLen st.disk p.1 p.2
  used_chain : List.Chain' (· < ·) st.used
  used_bound : ∀ u ∈ st.used, u ≤ st.active_fileid

/-- The statistics counting invariant: per segment, `live_keys` equals the number
of KeyDir entries pointing at that segment. -/
def LiveCountOk (st : Engine K V) : Prop :=
  ∀ f, statLive st.stats f = liveCount st.keydir f

/-- The full engine invariant. -/
def Valid (st : Engine K V) : Prop :=
  ValidCore encLen st ∧ LiveCountOk st

/-- The loop invariant of `Writer::merge` over the merge state: the merge file
ids stay above the pre-merge active id `A`, the pre-merge segments are
untouched, the merge position tracks the current merge file size, map keys stay
unique and bounded, statistics of old segments are untouched, and the ghost
allocation list keeps its chain. -/
structure MergeAccInv (A : Nat) (disk0 : List (Nat × List (DataFileEntry K V)))
    (stats0 : List (Nat × LogStatistics)) (acc : MergeState K V) : Prop where
  fid_gt : A < acc.fileid
  old_pres : ∀ f, f ≤ A → alookup acc.disk f = alookup disk0 f
  pos_eq : acc.pos = segSize encLen ((alookup acc.disk acc.fileid).getD [])
  disk_nodup : (acc.disk.map Prod.fst).Nodup
  disk_bound : ∀ f ∈ acc.disk.map Prod.fst, f ≤ acc.fileid
  hints_nodup : (acc.hints.map Prod.fst).Nodup
  hints_bound : ∀ f ∈ acc.hints.map Prod.fst, f ≤ acc.fileid
  stats_nodup : (acc.stats.map Prod.fst).Nodup
  stats_sub : ∀ f ∈ acc.stats.map Prod.fst, f ∈ acc.disk.map Prod.fst
  stats_old : ∀ f, f ≤ A → alookup acc.stats f = alookup stats0 f
  used_chain : List.Chain' (· < ·) acc.used
  used_bound : ∀ u ∈ acc.used, u ≤ acc.fileid

/-- The pointwise relation between a pre-merge KeyDir entry and its post-merge
counterpart: same key; entries outside the merge set are untouched; entries
inside it are repointed into a merge file above `A`; and in both cases the
entry decodes to the same record. -/
def MergeEntryRel (A : Nat) (S : List Nat)
    (disk0 : List (Nat × List (DataFileEntry K V)))
    (diskF : List (Nat × List (DataFileEntry K V)))
    (hi : Nat) (p q : K × KeyDirEntry) : Prop :=
  q.1 = p.1 ∧
  (p.2.fileid ∉ S → q.2 = p.2) ∧
  (p.2.fileid ∈ S → A < q.2.fileid ∧ q.2.fileid ≤ hi) ∧
  ∃ rec, readAtDisk encLen disk0 p.2.fileid p.2.len p.2.pos = some rec ∧
    readAtDisk encLen diskF q.2.fileid q.2.len q.2.pos = some rec

end Validity

section AssocLemmas

variable {α β : Type} [DecidableEq α]

theorem alookup_eq_none_of_not_mem (m : List (α × β)) (a : α)
    (h : a ∉ m.map Prod.fst) : alookup m a = none := by
  induction m with
  | nil => rfl
  | cons hd tl ih =>
    obtain ⟨a', b'⟩ := hd
    simp only [List.map_cons, List.mem_cons] at h
    push_neg at h
    have h1 : ¬ a' = a := fun hh => h.1 hh.symm
    simp only [alookup, if_neg h1]
    exact ih h.2

theorem alookup_ainsert_self (m : List (α × β)) (a : α) (b : β) :
    alookup (ainsert m a b).1 a = some b := by
  induction m with
  | nil => simp [ainsert, alookup]
  | cons hd tl ih =>
    obtain ⟨a', b'⟩ := hd
    by_cases h : a' = a
    · simp [ainsert, h, alookup]
    · simp [ainsert, h, alookup, ih]

theorem alookup_ainsert_ne (m : List (α × β)) (a x : α) (b : β) (h : x ≠ a) :
    alookup (ainsert m a b).1 x = alookup m x := by
  have hax : ¬ a = x := fun hh => h hh.symm
  induction m with
  | nil => simp [ainsert, alookup, hax]
  | cons hd tl ih =>
    obtain ⟨a', b'⟩ := hd
    by_cases h1 : a' = a
    · subst h1
      simp [ainsert, alookup, hax]
    · simp only [ainsert, if_neg h1]
      simp only [alookup]
      rw [ih]

theorem ainsert_snd (m : List (α × β)) (a : α) (b : β) :
    (ainsert m a b).2 = alookup m a := by
  induction m with
  | nil => simp [ainsert, alookup]
  | cons hd tl ih =>
    obtain ⟨a', b'⟩ := hd
    by_cases h : a' = a <;> simp [ainsert, alookup, h, ih]

theorem mem_keys_ainsert (m : List (α × β)) (a x : α) (b : β) :
    x ∈ (ainsert m a b).1.map Prod.fst ↔ x = a ∨ x ∈ m.map Prod.fst := by
  induction m with
  | nil => simp [ainsert]
  | cons hd tl ih =>
    obtain ⟨a', b'⟩ := hd
    by_cases h : a' = a
    · subst h
      simp [ainsert]
    · simp [ainsert, h, ih]
      tauto

theorem nodup_keys_ainsert (m : List (α × β)) (a : α) (b : β)
    (h : (m.map Prod.fst).Nodup) : ((ainsert m a b).1.map Prod.fst).Nodup := by
  induction m with
  | nil => simp [ainsert]
  | cons hd tl ih =>
    obtain ⟨a', b'⟩ := hd
    rw [List.map_cons, List.nodup_cons] at h
    by_cases h1 : a' = a
    · subst h1
      have step : (ainsert ((a', b') :: tl) a' b).1 = (a', b) :: tl := by
        simp [ainsert]
      rw [step, List.map_cons, List.nodup_cons]
      exact ⟨h.1, h.2⟩
    · have step : (ainsert ((a', b') :: tl) a b).1 = (a', b') :: (ainsert tl a b).1 := by
        simp [ainsert, h1]
      rw [step, List.map_cons, List.nodup_cons]
      refine ⟨fun hmem => ?_, ih h.2⟩
      rcases (mem_keys_ainsert tl a a' b).mp hmem with h2 | h2
      · exact h1 h2
      · exact h.1 h2

theorem alookup_aremove_ne (m : List (α × β)) (a x : α) (h : x ≠ a) :
    alookup (aremove m a).1 x = alookup m x := by
  induction m with
  | nil => simp [aremove]
  | cons hd tl ih =>
    obtain ⟨a', b'⟩ := hd
    by_cases h1 : a' = a
    · subst h1
      have h2 : ¬ a' = x := fun hh => h (hh.symm)
      simp [aremove, alookup, h2]
    · have step : (aremove ((a', b') :: tl) a).1 = (a', b') :: (aremove tl a).1 := by
        simp [aremove, h1]
      rw [step]
      simp only [alookup]
      rw [ih]

theorem aremove_snd (m : List (α × β)) (a : α) :
    (aremove m a).2 = alookup m a := by
  induction m with
  | nil => simp [aremove, alookup]
  | cons hd tl ih =>
    obtain ⟨a', b'⟩ := hd
    by_cases h : a' = a <;> simp [aremove, alookup, h, ih]

theorem keys_aremove_sublist (m : List (α × β)) (a : α) :
    ((aremove m a).1.map Prod.fst).Sublist (m.map Prod.fst) := by
  induction m with
  | nil => simp [aremove]
  | cons hd tl ih =>
    obtain ⟨a', b'⟩ := hd
    by_cases h : a' = a
    · have step : (aremove ((a', b') :: tl) a).1 = tl := by
        simp [aremove, h]
      rw [step, List.map_cons]
      exact (List.Sublist.refl _).cons _
    · have step : (aremove ((a', b') :: tl) a).1 = (a', b') :: (aremove tl a).1 := by
        simp [aremove, h]
      rw [step, List.map_cons, List.map_cons]
      exact ih.cons₂ _

theorem nodup_keys_aremove (m : List (α × β)) (a : α)
    (h : (m.map Prod.fst).Nodup) : ((aremove m a).1.map Prod.fst).Nodup :=
  (keys_aremove_sublist m a).nodup h

theorem mem_keys_aremove (m : List (α × β)) (a x : α)
    (hx : x ∈ (aremove m a).1.map Prod.fst) : x ∈ m.map Prod.fst :=
  (keys_aremove_sublist m a).mem hx

theorem alookup_aremove_self (m : List (α × β)) (a : α)
    (h : (m.map Prod.fst).Nodup) : alookup (aremove m a).1 a = none := by
  induction m with
  | nil => simp [aremove, alookup]
  | cons hd tl ih =>
    obtain ⟨a', b'⟩ := hd
    rw [List.map_cons, List.nodup_cons] at h
    by_cases h1 : a' = a
    · subst h1
      have step : (aremove ((a', b') :: tl) a').1 = tl := by
        simp [aremove]
      rw [step]
      exact alookup_eq_none_of_not_mem tl a' h.1
    · have step : (aremove ((a', b') :: tl) a).1 = (a', b') :: (aremove tl a).1 := by
        simp [aremove, h1]
      rw [step]
      simp only [alookup, if_neg h1]
      exact ih h.2

theorem alookup_amodify_self (m : List (α × β)) (a : α) (d : β) (f : β → β) :
    alookup (amodify m a d f) a = some (f ((alookup m a).getD d)) := by
  induction m with
  | nil => simp [amodify, alookup]
  | cons hd tl ih =>
    obtain ⟨a', b'⟩ := hd
    by_cases h : a' = a <;> simp [amodify, alookup, h, ih]

theorem alookup_amodify_ne (m : List (α × β)) (a x : α) (d : β) (f : β → β)
    (h : x ≠ a) : alookup (amodify m a d f) x = alookup m x := by
  have hax : ¬ a = x := fun hh => h hh.symm
  induction m with
  | nil => simp [amodify, alookup, hax]
  | cons hd tl ih =>
    obtain ⟨a', b'⟩ := hd
    by_cases h1 : a' = a
    · subst h1
      simp [amodify, alookup, hax]
    · have step : amodify ((a', b') :: tl) a d f = (a', b') :: amodify tl a d f := by
        simp [amodify, h1]
      rw [step]
      simp only [alookup]
      rw [ih]

theorem mem_keys_amodify (m : List (α × β)) (a x : α) (d : β) (f : β → β) :
    x ∈ (amodify m a d f).map Prod.fst ↔ x = a ∨ x ∈ m.map Prod.fst := by
  induction m with
  | nil => simp [amodify]
  | cons hd tl ih =>
    obtain ⟨a', b'⟩ := hd
    by_cases h : a' = a
    · subst h
      simp [amodify]
    · simp [amodify, h, ih]
      tauto

theorem nodup_keys_amodify (m : List (α × β)) (a : α) (d : β) (f : β → β)
    (h : (m.map Prod.fst).Nodup) : ((amodify m a d f).map Prod.fst).Nodup := by
  induction m with
  | nil => simp [amodify]
  | cons hd tl ih =>
    obtain ⟨a', b'⟩ := hd
    rw [List.map_cons, List.nodup_cons] at h
    by_cases h1 : a' = a
    · subst h1
      have step : amodify ((a', b') :: tl) a' d f = (a', f b') :: tl := by
        simp [amodify]
      rw [step, List.map_cons, List.nodup_cons]
      exact h
    · have step : amodify ((a', b') :: tl) a d f = (a', b') :: amodify tl a d f := by
        simp [amodify, h1]
      rw [step, List.map_cons, List.nodup_cons]
      refine ⟨fun hmem => ?_, ih h.2⟩
      rcases (mem_keys_amodify tl a a' d f).mp hmem with h2 | h2
      · exact h1 h2
      · exact h.1 h2

theorem alookup_aremoveAll (m : List (α × β)) (S : List α) (f : α)
    (h : (m.map Prod.fst).Nodup) :
    alookup (aremoveAll m S) f = if f ∈ S then none else alookup m f := by
  induction S generalizing m with
  | nil => simp [aremoveAll]
  | cons i S ih =>
    have step : aremoveAll m (i :: S) = aremoveAll (aremove m i).1 S := rfl
    rw [step, ih _ (nodup_keys_aremove m i h)]
    by_cases hf : f ∈ S
    · simp [hf]
    · by_cases hfi : f = i
      · subst hfi
        simp [hf, alookup_aremove_self m f h]
      · simp [hf, hfi, alookup_aremove_ne m i f hfi]

theorem keys_aremoveAll_sublist (m : List (α × β)) (S : List α) :
    ((aremoveAll m S).map Prod.fst).Sublist (m.map Prod.fst) := by
  induction S generalizing m with
  | nil => simp [aremoveAll]
  | cons i S ih =>
    exact (ih (aremove m i).1).trans (keys_aremove_sublist m i)

theorem nodup_keys_aremoveAll (m : List (α × β)) (S : List α)
    (h : (m.map Prod.fst).Nodup) : ((aremoveAll m S).map Prod.fst).Nodup :=
  (keys_aremoveAll_sublist m S).nodup h

theorem mem_keys_aremoveAll (m : List (α × β)) (S : List α) (x : α)
    (hx : x ∈ (aremoveAll m S).map Prod.fst) : x ∈ m.map Prod.fst :=
  (keys_aremoveAll_sublist m S).mem hx

theorem alookup_mem (m : List (α × β)) (a : α) (b : β)
    (h : alookup m a = some b) : (a, b) ∈ m := by
  induction m with
  | nil => simp [alookup] at h
  | cons hd tl ih =>
    obtain ⟨a', b'⟩ := hd
    by_cases h1 : a' = a
    · subst h1
      rw [alookup, if_pos rfl] at h
      injection h with h2
      subst h2
      exact List.mem_cons_self _ _
    · rw [alookup, if_neg h1] at h
      exact List.mem_cons_of_mem _ (ih h)

theorem alookup_isSome_iff_mem_keys (m : List (α × β)) (a : α) :
    (alookup m a).isSome ↔ a ∈ m.map Prod.fst := by
  induction m with
  | nil => simp [alookup]
  | cons hd tl ih =>
    obtain ⟨a', b'⟩ := hd
    by_cases h1 : a' = a
    · subst h1
      simp [alookup]
    · have h2 : ¬ a = a' := fun hh => h1 hh.symm
      simp [alookup, h1, ih, h2]

end AssocLemmas

section ReadAtLemmas

variable {K V : Type} [DecidableEq K] [DecidableEq V]
variable (encLen : DataFileEntry K V → Nat)

theorem readAt_append (seg : List (DataFileEntry K V)) (tail : List (DataFileEntry K V))
    (len pos : Nat) (rec : DataFileEntry K V)
    (h : readAt encLen seg len pos = some rec) :
    readAt encLen (seg ++ tail) len pos = some rec := by
  induction seg generalizing pos with
  | nil => simp [readAt] at h
  | cons r rs ih =>
    rw [List.cons_append, readAt]
    rw [readAt] at h
    by_cases h0 : pos = 0
    · simpa [h0] using by simpa [h0] using h
    · rw [if_neg h0] at h ⊢
      by_cases h1 : pos < encLen r
      · rw [if_pos h1] at h
        exact absurd h (by simp)
      · rw [if_neg h1] at h ⊢
        exact ih _ h

theorem readAt_last (hpos : ∀ q, 0 < encLen q) (seg : List (DataFileEntry K V))
    (r : DataFileEntry K V) :
    readAt encLen (seg ++ [r]) (encLen r) (segSize encLen seg) = some r := by
  induction seg with
  | nil => simp [readAt, segSize]
  | cons q rs ih =>
    have hq := hpos q
    have hsz : segSize encLen (q :: rs) = encLen q + segSize encLen rs := by
      simp [segSize]
    rw [List.cons_append, readAt, hsz]
    have h0 : ¬ (encLen q + segSize encLen rs = 0) := by omega
    have h1 : ¬ (encLen q + segSize encLen rs < encLen q) := by omega
    rw [if_neg h0, if_neg h1]
    have h2 : encLen q + segSize encLen rs - encLen q = segSize encLen rs := by omega
    rw [h2]
    exact ih

end ReadAtLemmas

section CountLemmas

variable {K : Type} [DecidableEq K]

theorem liveCount_cons (p : K × KeyDirEntry) (kd : List (K × KeyDirEntry)) (f : Nat) :
    liveCount (p :: kd) f = (if p.2.fileid = f then 1 else 0) + liveCount kd f := by
  by_cases h : p.2.fileid = f
  · simp [liveCount, List.countP_cons, h, Nat.add_comm]
  · simp [liveCount, List.countP_cons, h]

theorem liveCount_pos_of_mem (kd : List (K × KeyDirEntry)) (k : K) (e : KeyDirEntry)
    (hmem : (k, e) ∈ kd) : 1 ≤ liveCount kd e.fileid := by
  induction kd with
  | nil => simp at hmem
  | cons hd tl ih =>
    rcases List.mem_cons.mp hmem with h | h
    · subst h
      rw [liveCount_cons]
      simp
    · rw [liveCount_cons]
      have := ih h
      omega

theorem prevCount_some (p : KeyDirEntry) (f : Nat) :
    (match some p with
     | some q => if q.fileid = f then 1 else 0
     | none => (0 : Nat)) = if p.fileid = f then 1 else 0 := rfl

theorem prevCount_none (f : Nat) :
    (match (none : Option KeyDirEntry) with
     | some q => if q.fileid = f then 1 else 0
     | none => (0 : Nat)) = 0 := rfl

theorem liveCount_ainsert (kd : List (K × KeyDirEntry)) (k : K) (e : KeyDirEntry)
    (f : Nat) :
    liveCount (ainsert kd k e).1 f +
      (match alookup kd k with
       | some p => if p.fileid = f then 1 else 0
       | none => 0) =
    liveCount kd f + (if e.fileid = f then 1 else 0) := by
  induction kd with
  | nil =>
    simp [ainsert, alookup, liveCount, List.countP_cons, beq_iff_eq, Nat.add_comm]
  | cons hd tl ih =>
    obtain ⟨k', e'⟩ := hd
    by_cases h : k' = k
    · subst h
      have step : (ainsert ((k', e') :: tl) k' e).1 = (k', e) :: tl := by
        simp [ainsert]
      have halk : alookup ((k', e') :: tl) k' = some e' := by
        rw [alookup, if_pos rfl]
      rw [step, halk, prevCount_some, liveCount_cons, liveCount_cons]
      simp only
      omega
    · have step : (ainsert ((k', e') :: tl) k e).1 = (k', e') :: (ainsert tl k e).1 := by
        simp [ainsert, h]
      have halk : alookup ((k', e') :: tl) k = alookup tl k := by
        rw [alookup, if_neg h]
      rw [step, halk, liveCount_cons, liveCount_cons]
      omega

theorem liveCount_aremove (kd : List (K × KeyDirEntry)) (k : K) (f : Nat) :
    liveCount (aremove kd k).1 f +
      (match alookup kd k with
       | some p => if p.fileid = f then 1 else 0
       | none => 0) =
    liveCount kd f := by
  induction kd with
  | nil => simp [aremove, alookup, liveCount]
  | cons hd tl ih =>
    obtain ⟨k', e'⟩ := hd
    by_cases h : k' = k
    · subst h
      have step : (aremove ((k', e') :: tl) k').1 = tl := by
        simp [aremove]
      have halk : alookup ((k', e') :: tl) k' = some e' := by
        rw [alookup, if_pos rfl]
      rw [step, halk, prevCount_some, liveCount_cons]
      simp only
      omega
    · have step : (aremove ((k', e') :: tl) k).1 = (k', e') :: (aremove tl k).1 := by
        simp [aremove, h]
      have halk : alookup ((k', e') :: tl) k = alookup tl k := by
        rw [alookup, if_neg h]
      rw [step, halk, liveCount_cons, liveCount_cons]
      omega

theorem statLive_amodify_add_live (stm : List (Nat × LogStatistics)) (a f : Nat) :
    statLive (amodify stm a LogStatistics.init LogStatistics.add_live) f =
      statLive stm f + (if a = f then 1 else 0) := by
  unfold statLive
  by_cases h : f = a
  · subst h
    rw [alookup_amodify_self]
    simp [LogStatistics.add_live]
  · have h2 : ¬ a = f := fun hh => h hh.symm
    rw [alookup_amodify_ne _ _ _ _ _ h, if_neg h2]
    omega

theorem statLive_amodify_add_dead (stm : List (Nat × LogStatistics)) (a n f : Nat) :
    statLive (amodify stm a LogStatistics.init (fun s => s.add_dead n)) f =
      statLive stm f := by
  unfold statLive
  by_cases h : f = a
  · subst h
    rw [alookup_amodify_self]
    simp [LogStatistics.add_dead]
  · rw [alookup_amodify_ne _ _ _ _ _ h]

theorem statLive_amodify_overwrite (stm : List (Nat × LogStatistics)) (a n f : Nat) :
    statLive (amodify stm a LogStatistics.init (fun s => s.overwrite n)) f =
      statLive stm f - (if a = f then 1 else 0) := by
  unfold statLive
  by_cases h : f = a
  · subst h
    rw [alookup_amodify_self]
    simp [LogStatistics.overwrite]
  · have h2 : ¬ a = f := fun hh => h hh.symm
    rw [alookup_amodify_ne _ _ _ _ _ h, if_neg h2]
    omega

theorem totalLive_amodify_add_live (stm : List (Nat × LogStatistics)) (a : Nat) :
    totalLive (amodify stm a LogStatistics.init LogStatistics.add_live) =
      totalLive stm + 1 := by
  induction stm with
  | nil => simp [amodify, totalLive, LogStatistics.add_live, LogStatistics.init]
  | cons hd tl ih =>
    obtain ⟨a', s'⟩ := hd
    by_cases h : a' = a
    · simp [amodify, h, totalLive, LogStatistics.add_live]
      omega
    · simp [amodify, h, totalLive] at ih ⊢
      omega

theorem totalDead_amodify_add_live (stm : List (Nat × LogStatistics)) (a : Nat) :
    totalDead (amodify stm a LogStatistics.init LogStatistics.add_live) =
      totalDead stm := by
  induction stm with
  | nil => simp [amodify, totalDead, LogStatistics.add_live, LogStatistics.init]
  | cons hd tl ih =>
    obtain ⟨a', s'⟩ := hd
    by_cases h : a' = a
    · simp [amodify, h, totalDead, LogStatistics.add_live]
    · simp [amodify, h, totalDead] at ih ⊢
      omega

theorem totalDeadBytes_amodify_add_live (stm : List (Nat × LogStatistics)) (a : Nat) :
    totalDeadBytes (amodify stm a LogStatistics.init LogStatistics.add_live) =
      totalDeadBytes stm := by
  induction stm with
  | nil => simp [amodify, totalDeadBytes, LogStatistics.add_live, LogStatistics.init]
  | cons hd tl ih =>
    obtain ⟨a', s'⟩ := hd
    by_cases h : a' = a
    · simp [amodify, h, totalDeadBytes, LogStatistics.add_live]
    · simp [amodify, h, totalDeadBytes] at ih ⊢
      omega

theorem totalLive_amodify_overwrite (stm : List (Nat × LogStatistics)) (a n : Nat)
    (hpos : 1 ≤ statLive stm a) :
    totalLive (amodify stm a LogStatistics.init (fun s => s.overwrite n)) + 1 =
      totalLive stm := by
  induction stm with
  | nil =>
    rw [statLive] at hpos
    simp [alookup, LogStatistics.init] at hpos
  | cons hd tl ih =>
    obtain ⟨a', s'⟩ := hd
    by_cases h : a' = a
    · subst h
      rw [statLive, alookup, if_pos rfl] at hpos
      simp only [Option.getD_some] at hpos
      simp [amodify, totalLive, LogStatistics.overwrite]
      omega
    · rw [statLive, alookup, if_neg h] at hpos
      have ih2 := ih hpos
      simp [amodify, h, totalLive] at ih2 ⊢
      omega

theorem totalDead_amodify_overwrite (stm : List (Nat × LogStatistics)) (a n : Nat) :
    totalDead (amodify stm a LogStatistics.init (fun s => s.overwrite n)) =
      totalDead stm + 1 := by
  induction stm with
  | nil => simp [amodify, totalDead, LogStatistics.overwrite, LogStatistics.init]
  | cons hd tl ih =>
    obtain ⟨a', s'⟩ := hd
    by_cases h : a' = a
    · simp [amodify, h, totalDead, LogStatistics.overwrite]
      omega
    · simp [amodify, h, totalDead] at ih ⊢
      omega

theorem totalDeadBytes_amodify_overwrite (stm : List (Nat × LogStatistics)) (a n : Nat) :
    totalDeadBytes (amodify stm a LogStatistics.init (fun s => s.overwrite n)) =
      totalDeadBytes stm + n := by
  induction stm with
  | nil => simp [amodify, totalDeadBytes, LogStatistics.overwrite, LogStatistics.init]
  | cons hd tl ih =>
    obtain ⟨a', s'⟩ := hd
    by_cases h : a' = a
    · simp [amodify, h, totalDeadBytes, LogStatistics.overwrite]
      omega
    · simp [amodify, h, totalDeadBytes] at ih ⊢
      omega

end CountLemmas

section WriteLemmas

variable {K V : Type} [DecidableEq K] [DecidableEq V]
variable (encLen : DataFileEntry K V → Nat)

theorem write_snd (cfg : Config) (st : Engine K V) (ts : Int) (k : K) (val : Option V) :
    (write encLen cfg st ts k val).2 =
      ⟨st.active_fileid, encLen ⟨ts, k, val⟩,
        segSize encLen ((alookup st.disk st.active_fileid).getD []), ts⟩ := rfl

theorem write_keydir (cfg : Config) (st : Engine K V) (ts : Int) (k : K) (val : Option V) :
    (write encLen cfg st ts k val).1.keydir = st.keydir := by
  simp only [write, appendActive, new_active_datafile]
  split <;> rfl

theorem write_hints (cfg : Config) (st : Engine K V) (ts : Int) (k : K) (val : Option V) :
    (write encLen cfg st ts k val).1.hints = st.hints := by
  simp only [write, appendActive, new_active_datafile]
  split <;> rfl

theorem write_merged (cfg : Config) (st : Engine K V) (ts : Int) (k : K) (val : Option V) :
    (write encLen cfg st ts k val).1.merged = st.merged := by
  simp only [write, appendActive, new_active_datafile]
  split <;> rfl

theorem write_stats (cfg : Config) (st : Engine K V) (ts : Int) (k : K) (val : Option V) :
    (write encLen cfg st ts k val).1.stats =
      amodify st.stats st.active_fileid LogStatistics.init
        (fun s => if val.isSome then s.add_live
                  else s.add_dead (encLen ⟨ts, k, val⟩)) := by
  simp only [write, appendActive, new_active_datafile]
  split <;> rfl

theorem write_shape (cfg : Config) (st : Engine K V) (ts : Int) (k : K) (val : Option V) :
    ((write encLen cfg st ts k val).1.active_fileid = st.active_fileid ∧
      (write encLen cfg st ts k val).1.used = st.used ∧
      (write encLen cfg st ts k val).1.disk =
        (ainsert st.disk st.active_fileid
          (((alookup st.disk st.active_fileid).getD []) ++ [⟨ts, k, val⟩])).1) ∨
    ((write encLen cfg st ts k val).1.active_fileid = st.active_fileid + 1 ∧
      (write encLen cfg st ts k val).1.used = st.used ++ [st.active_fileid + 1] ∧
      (write encLen cfg st ts k val).1.disk =
        (ainsert (ainsert st.disk st.active_fileid
            (((alookup st.disk st.active_fileid).getD []) ++ [⟨ts, k, val⟩])).1
          (st.active_fileid + 1) []).1) := by
  simp only [write, appendActive, new_active_datafile]
  split
  · right
    exact ⟨rfl, rfl, rfl⟩
  · left
    exact ⟨rfl, rfl, rfl⟩

theorem readAtDisk_preserved_ainsert_append
    (disk : List (Nat × List (DataFileEntry K V))) (a : Nat)
    (tail : List (DataFileEntry K V)) (f len pos : Nat) (r : DataFileEntry K V)
    (h : readAtDisk encLen disk f len pos = some r) :
    readAtDisk encLen
      (ainsert disk a (((alookup disk a).getD []) ++ tail)).1 f len pos = some r := by
  by_cases hf : f = a
  · subst hf
    unfold readAtDisk at h ⊢
    rw [alookup_ainsert_self]
    simp only [Option.getD_some]
    exact readAt_append encLen _ tail len pos r h
  · unfold readAtDisk at h ⊢
    rw [alookup_ainsert_ne _ _ _ _ hf]
    exact h

theorem readAtDisk_preserved_ainsert_ne
    (disk : List (Nat × List (DataFileEntry K V))) (a : Nat)
    (x : List (DataFileEntry K V)) (f len pos : Nat) (r : DataFileEntry K V)
    (hne : f ≠ a) (h : readAtDisk encLen disk f len pos = some r) :
    readAtDisk encLen (ainsert disk a x).1 f len pos = some r := by
  unfold readAtDisk at h ⊢
  rw [alookup_ainsert_ne _ _ _ _ hne]
  exact h

theorem readAtDisk_isSome_mem (disk : List (Nat × List (DataFileEntry K V)))
    (f len pos : Nat) (r : DataFileEntry K V)
    (h : readAtDisk encLen disk f len pos = some r) : f ∈ disk.map Prod.fst := by
  rw [← alookup_isSome_iff_mem_keys]
  unfold readAtDisk at h
  rcases hl : alookup disk f with _ | seg
  · rw [hl] at h
    simp only [Option.getD_none] at h
    rw [readAt] at h
    exact absurd h (by simp)
  · rfl

theorem readAtDisk_write (cfg : Config) (st : Engine K V) (ts : Int) (k : K)
    (val : Option V) (f len pos : Nat) (r : DataFileEntry K V)
    (hb : f ≤ st.active_fileid)
    (h : readAtDisk encLen st.disk f len pos = some r) :
    readAtDisk encLen (write encLen cfg st ts k val).1.disk f len pos = some r := by
  rcases write_shape encLen cfg st ts k val with ⟨_, _, hd⟩ | ⟨_, _, hd⟩
  · rw [hd]
    exact readAtDisk_preserved_ainsert_append encLen st.disk st.active_fileid _ f len pos r h
  · rw [hd]
    have hne : f ≠ st.active_fileid + 1 := by omega
    exact readAtDisk_preserved_ainsert_ne encLen _ _ _ f len pos r hne
      (readAtDisk_preserved_ainsert_append encLen st.disk st.active_fileid _ f len pos r h)

theorem readAtDisk_write_new (hpos : ∀ q, 0 < encLen q) (cfg : Config)
    (st : Engine K V) (ts : Int) (k : K) (val : Option V) :
    readAtDisk encLen (write encLen cfg st ts k val).1.disk st.active_fileid
      (encLen ⟨ts, k, val⟩)
      (segSize encLen ((alookup st.disk st.active_fileid).getD [])) =
      some ⟨ts, k, val⟩ := by
  have base : readAtDisk encLen
      (ainsert st.disk st.active_fileid
        (((alookup st.disk st.active_fileid).getD []) ++ [⟨ts, k, val⟩])).1
      st.active_fileid (encLen ⟨ts, k, val⟩)
      (segSize encLen ((alookup st.disk st.active_fileid).getD [])) =
      some ⟨ts, k, val⟩ := by
    unfold readAtDisk
    rw [alookup_ainsert_self]
    exact readAt_last encLen hpos _ _
  rcases write_shape encLen cfg st ts k val with ⟨_, _, hd⟩ | ⟨_, _, hd⟩
  · rw [hd]
    exact base
  · rw [hd]
    have hne : st.active_fileid ≠ st.active_fileid + 1 := by omega
    exact readAtDisk_preserved_ainsert_ne encLen _ _ _ _ _ _ _ hne base

end WriteLemmas

section StepLemmas

variable {K V : Type} [DecidableEq K] [DecidableEq V]
variable (encLen : DataFileEntry K V → Nat)

theorem mem_ainsert_elim {α β : Type} [DecidableEq α] (m : List (α × β)) (a : α)
    (b : β) (p : α × β) (hp : p ∈ (ainsert m a b).1) : p = (a, b) ∨ p ∈ m := by
  induction m with
  | nil =>
    simp [ainsert] at hp
    exact Or.inl hp
  | cons hd tl ih =>
    obtain ⟨a', b'⟩ := hd
    by_cases h : a' = a
    · subst h
      have step : (ainsert ((a', b') :: tl) a' b).1 = (a', b) :: tl := by
        simp [ainsert]
      rw [step] at hp
      rcases List.mem_cons.mp hp with h2 | h2
      · exact Or.inl h2
      · exact Or.inr (List.mem_cons_of_mem _ h2)
    · have step : (ainsert ((a', b') :: tl) a b).1 = (a', b') :: (ainsert tl a b).1 := by
        simp [ainsert, h]
      rw [step] at hp
      rcases List.mem_cons.mp hp with h2 | h2
      · exact Or.inr (h2 ▸ List.mem_cons_self _ _)
      · rcases ih h2 with h3 | h3
        · exact Or.inl h3
        · exact Or.inr (List.mem_cons_of_mem _ h3)

theorem mem_aremove_elim {α β : Type} [DecidableEq α] (m : List (α × β)) (a : α)
    (p : α × β) (hp : p ∈ (aremove m a).1) : p ∈ m := by
  induction m with
  | nil => simpa [aremove] using hp
  | cons hd tl ih =>
    obtain ⟨a', b'⟩ := hd
    by_cases h : a' = a
    · have step : (aremove ((a', b') :: tl) a).1 = tl := by
        simp [aremove, h]
      rw [step] at hp
      exact List.mem_cons_of_mem _ hp
    · have step : (aremove ((a', b') :: tl) a).1 = (a', b') :: (aremove tl a).1 := by
        simp [aremove, h]
      rw [step] at hp
      rcases List.mem_cons.mp hp with h2 | h2
      · exact h2 ▸ List.mem_cons_self _ _
      · exact List.mem_cons_of_mem _ (ih h2)

theorem chain_append_lt (l : List Nat) (x : Nat) (hc : List.Chain' (· < ·) l)
    (hb : ∀ u ∈ l, u < x) : List.Chain' (· < ·) (l ++ [x]) := by
  rw [List.chain'_append]
  refine ⟨hc, List.chain'_singleton x, fun a ha y hy => ?_⟩
  have ha2 : a ∈ l := List.mem_of_mem_getLast? ha
  have hy2 : y = x := by
    simp at hy
    exact hy.symm
  subst hy2
  exact hb a ha2

theorem put_eq (cfg : Config) (st : Engine K V) (ts : Int) (k : K) (v : V) :
    put encLen cfg st ts k v =
      (match alookup st.keydir k with
       | some prev =>
         { (write encLen cfg st ts k (some v)).1 with
             keydir := (ainsert st.keydir k (write encLen cfg st ts k (some v)).2).1,
             stats := amodify (write encLen cfg st ts k (some v)).1.stats prev.fileid
               LogStatistics.init (fun s => s.overwrite prev.len) }
       | none =>
         { (write encLen cfg st ts k (some v)).1 with
             keydir := (ainsert st.keydir k (write encLen cfg st ts k (some v)).2).1 }) := by
  simp only [put]
  rw [ainsert_snd, write_keydir]

theorem delete_eq (cfg : Config) (st : Engine K V) (ts : Int) (k : K) :
    delete encLen cfg st ts k =
      (match alookup st.keydir k with
       | some prev =>
         ({ (write encLen cfg st ts k none).1 with
             keydir := (aremove st.keydir k).1,
             stats := amodify (write encLen cfg st ts k none).1.stats prev.fileid
               LogStatistics.init (fun s => s.overwrite prev.len) }, true)
       | none =>
         ({ (write encLen cfg st ts k none).1 with
             keydir := (aremove st.keydir k).1 }, false)) := by
  simp only [delete]
  rw [aremove_snd, write_keydir]

theorem get_eq_readAtDisk (st : Engine K V) (k : K) :
    get encLen st k =
      (match alookup st.keydir k with
       | none => none
       | some e =>
         match readAtDisk encLen st.disk e.fileid e.len e.pos with
         | none => none
         | some rec => rec.value) := by
  unfold get readAtDisk
  rcases alookup st.keydir k with _ | e
  · rfl
  · simp only
    rcases hd : alookup st.disk e.fileid with _ | seg
    · simp [readAt]
    · rfl

theorem put_keydir (cfg : Config) (st : Engine K V) (ts : Int) (k : K) (v : V) :
    (put encLen cfg st ts k v).keydir =
      (ainsert st.keydir k (write encLen cfg st ts k (some v)).2).1 := by
  rw [put_eq]
  rcases alookup st.keydir k with _ | prev <;> rfl

theorem put_disk (cfg : Config) (st : Engine K V) (ts : Int) (k : K) (v : V) :
    (put encLen cfg st ts k v).disk = (write encLen cfg st ts k (some v)).1.disk := by
  rw [put_eq]
  rcases alookup st.keydir k with _ | prev <;> rfl

theorem put_active (cfg : Config) (st : Engine K V) (ts : Int) (k : K) (v : V) :
    (put encLen cfg st ts k v).active_fileid =
      (write encLen cfg st ts k (some v)).1.active_fileid := by
  rw [put_eq]
  rcases alookup st.keydir k with _ | prev <;> rfl

theorem put_used (cfg : Config) (st : Engine K V) (ts : Int) (k : K) (v : V) :
    (put encLen cfg st ts k v).used = (write encLen cfg st ts k (some v)).1.used := by
  rw [put_eq]
  rcases alookup st.keydir k with _ | prev <;> rfl

theorem put_hints (cfg : Config) (st : Engine K V) (ts : Int) (k : K) (v : V) :
    (put encLen cfg st ts k v).hints = st.hints := by
  rw [put_eq]
  rcases alookup st.keydir k with _ | prev <;> rw [show ({ (write encLen cfg st ts k (some v)).1 with
    keydir := (ainsert st.keydir k (write encLen cfg st ts k (some v)).2).1 } : Engine K V).hints =
    (write encLen cfg st ts k (some v)).1.hints from rfl] <;> exact write_hints encLen cfg st ts k (some v)

theorem delete_keydir (cfg : Config) (st : Engine K V) (ts : Int) (k : K) :
    (delete encLen cfg st ts k).1.keydir = (aremove st.keydir k).1 := by
  rw [delete_eq]
  rcases alookup st.keydir k with _ | prev <;> rfl

theorem delete_disk (cfg : Config) (st : Engine K V) (ts : Int) (k : K) :
    (delete encLen cfg st ts k).1.disk = (write encLen cfg st ts k none).1.disk := by
  rw [delete_eq]
  rcases alookup st.keydir k with _ | prev <;> rfl

theorem delete_active (cfg : Config) (st : Engine K V) (ts : Int) (k : K) :
    (delete encLen cfg st ts k).1.active_fileid =
      (write encLen cfg st ts k none).1.active_fileid := by
  rw [delete_eq]
  rcases alookup st.keydir k with _ | prev <;> rfl

theorem delete_used (cfg : Config) (st : Engine K V) (ts : Int) (k : K) :
    (delete encLen cfg st ts k).1.used = (write encLen cfg st ts k none).1.used := by
  rw [delete_eq]
  rcases alookup st.keydir k with _ | prev <;> rfl

theorem delete_snd_eq (cfg : Config) (st : Engine K V) (ts : Int) (k : K) :
    (delete encLen cfg st ts k).2 = (alookup st.keydir k).isSome := by
  rw [delete_eq]
  rcases alookup st.keydir k with _ | prev <;> rfl

theorem write_disk_keys_mono (cfg : Config) (st : Engine K V) (ts : Int) (k : K)
    (val : Option V) (f : Nat) (hf : f ∈ st.disk.map Prod.fst) :
    f ∈ (write encLen cfg st ts k val).1.disk.map Prod.fst := by
  rcases write_shape encLen cfg st ts k val with ⟨_, _, hd⟩ | ⟨_, _, hd⟩ <;> rw [hd]
  · exact (mem_keys_ainsert _ _ _ _).mpr (Or.inr hf)
  · exact (mem_keys_ainsert _ _ _ _).mpr
      (Or.inr ((mem_keys_ainsert _ _ _ _).mpr (Or.inr hf)))

theorem write_active_lb (cfg : Config) (st : Engine K V) (ts : Int) (k : K)
    (val : Option V) :
    st.active_fileid ≤ (write encLen cfg st ts k val).1.active_fileid := by
  rcases write_shape encLen cfg st ts k val with ⟨ha, _, _⟩ | ⟨ha, _, _⟩ <;> rw [ha] <;> omega

theorem validCore_write (cfg : Config) (st : Engine K V) (ts : Int) (k : K)
    (val : Option V) (hv : ValidCore encLen st) :
    ValidCore encLen (write encLen cfg st ts k val).1 := by
  have hkd := write_keydir encLen cfg st ts k val
  have hst := write_stats encLen cfg st ts k val
  have hhi := write_hints encLen cfg st ts k val
  have entries : ∀ p ∈ (write encLen cfg st ts k val).1.keydir,
      EntryOk encLen (write encLen cfg st ts k val).1.disk p.1 p.2 := by
    intro p hp
    rw [hkd] at hp
    obtain ⟨rec, hr, hk2, hvs⟩ := hv.entries_ok p hp
    have hb : p.2.fileid ≤ st.active_fileid :=
      hv.disk_bound _ (readAtDisk_isSome_mem encLen _ _ _ _ _ hr)
    exact ⟨rec, readAtDisk_write encLen cfg st ts k val _ _ _ _ hb hr, hk2, hvs⟩
  have stats_sub : ∀ f ∈ (write encLen cfg st ts k val).1.stats.map Prod.fst,
      f ∈ (write encLen cfg st ts k val).1.disk.map Prod.fst := by
    intro f hf
    rw [hst] at hf
    rcases (mem_keys_amodify _ _ _ _ _).mp hf with h | h
    · subst h
      rcases write_shape encLen cfg st ts k val with ⟨_, _, hd⟩ | ⟨_, _, hd⟩ <;> rw [hd]
      · exact (mem_keys_ainsert _ _ _ _).mpr (Or.inl rfl)
      · exact (mem_keys_ainsert _ _ _ _).mpr
          (Or.inr ((mem_keys_ainsert _ _ _ _).mpr (Or.inl rfl)))
    · exact write_disk_keys_mono encLen cfg st ts k val f (hv.stats_sub f h)
  rcases write_shape encLen cfg st ts k val with ⟨ha, hu, hd⟩ | ⟨ha, hu, hd⟩
  · constructor
    · rw [hkd]
      exact hv.kd_nodup
    · rw [hst]
      exact nodup_keys_amodify _ _ _ _ hv.stats_nodup
    · rw [hd]
      exact nodup_keys_ainsert _ _ _ hv.disk_nodup
    · rw [hhi]
      exact hv.hints_nodup
    · intro f hf
      rw [ha]
      rw [hd] at hf
      rcases (mem_keys_ainsert _ _ _ _).mp hf with h | h
      · omega
      · exact hv.disk_bound f h
    · intro f hf
      rw [ha]
      rw [hhi] at hf
      exact hv.hints_bound f hf
    · exact stats_sub
    · exact entries
    · rw [hu]
      exact hv.used_chain
    · intro u hu2
      rw [ha]
      rw [hu] at hu2
      exact hv.used_bound u hu2
  · constructor
    · rw [hkd]
      exact hv.kd_nodup
    · rw [hst]
      exact nodup_keys_amodify _ _ _ _ hv.stats_nodup
    · rw [hd]
      exact nodup_keys_ainsert _ _ _ (nodup_keys_ainsert _ _ _ hv.disk_nodup)
    · rw [hhi]
      exact hv.hints_nodup
    · intro f hf
      rw [ha]
      rw [hd] at hf
      rcases (mem_keys_ainsert _ _ _ _).mp hf with h | h
      · omega
      · rcases (mem_keys_ainsert _ _ _ _).mp h with h2 | h2
        · omega
        · have := hv.disk_bound f h2
          omega
    · intro f hf
      rw [ha]
      rw [hhi] at hf
      have := hv.hints_bound f hf
      omega
    · exact stats_sub
    · exact entries
    · rw [hu]
      refine chain_append_lt st.used _ hv.used_chain (fun u hu2 => ?_)
      have := hv.used_bound u hu2
      omega
    · intro u hu2
      rw [ha]
      rw [hu] at hu2
      rcases List.mem_append.mp hu2 with h | h
      · have := hv.used_bound u h
        omega
      · simp at h
        omega

theorem entryOk_write_new (hpos : ∀ q, 0 < encLen q) (cfg : Config)
    (st : Engine K V) (ts : Int) (k : K) (v : V) :
    EntryOk encLen (write encLen cfg st ts k (some v)).1.disk k
      (write encLen cfg st ts k (some v)).2 := by
  rw [write_snd]
  exact ⟨⟨ts, k, some v⟩,
    readAtDisk_write_new encLen hpos cfg st ts k (some v), rfl, rfl⟩

theorem validCore_put (hpos : ∀ q, 0 < encLen q) (cfg : Config) (st : Engine K V)
    (ts : Int) (k : K) (v : V) (hv : ValidCore encLen st) :
    ValidCore encLen (put encLen cfg st ts k v) := by
  have hw := validCore_write encLen cfg st ts k (some v) hv
  have hkd := put_keydir encLen cfg st ts k v
  have hdi := put_disk encLen cfg st ts k v
  have hac := put_active encLen cfg st ts k v
  have hus := put_used encLen cfg st ts k v
  have hhi := put_hints encLen cfg st ts k v
  have hwh := write_hints encLen cfg st ts k (some v)
  have entries : ∀ p ∈ (put encLen cfg st ts k v).keydir,
      EntryOk encLen (put encLen cfg st ts k v).disk p.1 p.2 := by
    intro p hp
    rw [hkd] at hp
    rw [hdi]
    rcases mem_ainsert_elim _ _ _ _ hp with h | h
    · subst h
      exact entryOk_write_new encLen hpos cfg st ts k v
    · obtain ⟨rec, hr, hk2, hvs⟩ := hv.entries_ok p h
      have hb : p.2.fileid ≤ st.active_fileid :=
        hv.disk_bound _ (readAtDisk_isSome_mem encLen _ _ _ _ _ hr)
      exact ⟨rec, readAtDisk_write encLen cfg st ts k (some v) _ _ _ _ hb hr, hk2, hvs⟩
  have stats_shape : (put encLen cfg st ts k v).stats =
      (write encLen cfg st ts k (some v)).1.stats ∨
      ∃ prev, alookup st.keydir k = some prev ∧
        (put encLen cfg st ts k v).stats =
          amodify (write encLen cfg st ts k (some v)).1.stats prev.fileid
            LogStatistics.init (fun s => s.overwrite prev.len) := by
    rw [put_eq]
    rcases hprev : alookup st.keydir k with _ | prev
    · exact Or.inl rfl
    · exact Or.inr ⟨prev, rfl, rfl⟩
  constructor
  · rw [hkd]
    have := hw.kd_nodup
    rw [write_keydir] at this
    exact nodup_keys_ainsert _ _ _ this
  · rcases stats_shape with h | ⟨prev, hprev, h⟩ <;> rw [h]
    · exact hw.stats_nodup
    · exact nodup_keys_amodify _ _ _ _ hw.stats_nodup
  · rw [hdi]
    exact hw.disk_nodup
  · rw [hhi]
    exact hv.hints_nodup
  · intro f hf
    rw [hac]
    rw [hdi] at hf
    exact hw.disk_bound f hf
  · intro f hf
    rw [hac]
    rw [hhi] at hf
    have hb := hv.hints_bound f hf
    have := write_active_lb encLen cfg st ts k (some v)
    omega
  · intro f hf
    rw [hdi]
    rcases stats_shape with h | ⟨prev, hprev, h⟩
    · rw [h] at hf
      exact hw.stats_sub f hf
    · rw [h] at hf
      rcases (mem_keys_amodify _ _ _ _ _).mp hf with h2 | h2
      · subst h2
        obtain ⟨rec, hr, _, _⟩ := hv.entries_ok (k, prev) (alookup_mem _ _ _ hprev)
        exact write_disk_keys_mono encLen cfg st ts k (some v) _
          (readAtDisk_isSome_mem encLen _ _ _ _ _ hr)
      · exact hw.stats_sub f h2
  · exact entries
  · rw [hus]
    exact hw.used_chain
  · intro u hu
    rw [hac]
    rw [hus] at hu
    exact hw.used_bound u hu

theorem validCore_delete (cfg : Config) (st : Engine K V)
    (ts : Int) (k : K) (hv : ValidCore encLen st) :
    ValidCore encLen (delete encLen cfg st ts k).1 := by
  have hw := validCore_write encLen cfg st ts k none hv
  have hkd := delete_keydir encLen cfg st ts k
  have hdi := delete_disk encLen cfg st ts k
  have hac := delete_active encLen cfg st ts k
  have hus := delete_used encLen cfg st ts k
  have hhi : (delete encLen cfg st ts k).1.hints = st.hints := by
    rw [delete_eq]
    rcases alookup st.keydir k with _ | prev <;>
      exact write_hints encLen cfg st ts k none
  have entries : ∀ p ∈ (delete encLen cfg st ts k).1.keydir,
      EntryOk encLen (delete encLen cfg st ts k).1.disk p.1 p.2 := by
    intro p hp
    rw [hkd] at hp
    rw [hdi]
    have h := mem_aremove_elim _ _ _ hp
    obtain ⟨rec, hr, hk2, hvs⟩ := hv.entries_ok p h
    have hb : p.2.fileid ≤ st.active_fileid :=
      hv.disk_bound _ (readAtDisk_isSome_mem encLen _ _ _ _ _ hr)
    exact ⟨rec, readAtDisk_write encLen cfg st ts k none _ _ _ _ hb hr, hk2, hvs⟩
  have stats_shape : (delete encLen cfg st ts k).1.stats =
      (write encLen cfg st ts k none).1.stats ∨
      ∃ prev, alookup st.keydir k = some prev ∧
        (delete encLen cfg st ts k).1.stats =
          amodify (write encLen cfg st ts k none).1.stats prev.fileid
            LogStatistics.init (fun s => s.overwrite prev.len) := by
    rw [delete_eq]
    rcases hprev : alookup st.keydir k with _ | prev
    · exact Or.inl rfl
    · exact Or.inr ⟨prev, rfl, rfl⟩
  constructor
  · rw [hkd]
    exact nodup_keys_aremove _ _ hv.kd_nodup
  · rcases stats_shape with h | ⟨prev, hprev, h⟩ <;> rw [h]
    · exact hw.stats_nodup
    · exact nodup_keys_amodify _ _ _ _ hw.stats_nodup
  · rw [hdi]
    exact hw.disk_nodup
  · rw [hhi]
    exact hv.hints_nodup
  · intro f hf
    rw [hac]
    rw [hdi] at hf
    exact hw.disk_bound f hf
  · intro f hf
    rw [hac]
    rw [hhi] at hf
    have hb := hv.hints_bound f hf
    have := write_active_lb encLen cfg st ts k none
    omega
  · intro f hf
    rw [hdi]
    rcases stats_shape with h | ⟨prev, hprev, h⟩
    · rw [h] at hf
      exact hw.stats_sub f hf
    · rw [h] at hf
      rcases (mem_keys_amodify _ _ _ _ _).mp hf with h2 | h2
      · subst h2
        obtain ⟨rec, hr, _, _⟩ := hv.entries_ok (k, prev) (alookup_mem _ _ _ hprev)
        exact write_disk_keys_mono encLen cfg st ts k none _
          (readAtDisk_isSome_mem encLen _ _ _ _ _ hr)
      · exact hw.stats_sub f h2
  · exact entries
  · rw [hus]
    exact hw.used_chain
  · intro u hu
    rw [hac]
    rw [hus] at hu
    exact hw.used_bound u hu

theorem statLive_write_put (cfg : Config) (st : Engine K V) (ts : Int) (k : K)
    (v : V) (f : Nat) :
    statLive (write encLen cfg st ts k (some v)).1.stats f =
      statLive st.stats f + (if st.active_fileid = f then 1 else 0) := by
  rw [write_stats]
  have hfun : (fun s : LogStatistics =>
      if (some v : Option V).isSome then s.add_live
      else s.add_dead (encLen ⟨ts, k, some v⟩)) = LogStatistics.add_live := by
    funext s
    simp
  rw [hfun]
  exact statLive_amodify_add_live st.stats st.active_fileid f

theorem statLive_write_del (cfg : Config) (st : Engine K V) (ts : Int) (k : K)
    (f : Nat) :
    statLive (write encLen cfg st ts k none).1.stats f = statLive st.stats f := by
  rw [write_stats]
  have hfun : (fun s : LogStatistics =>
      if (none : Option V).isSome then s.add_live
      else s.add_dead (encLen ⟨ts, k, none⟩)) =
      (fun s => s.add_dead (encLen ⟨ts, k, (none : Option V)⟩)) := by
    funext s
    simp
  rw [hfun]
  exact statLive_amodify_add_dead st.stats st.active_fileid _ f

theorem liveCountOk_put (cfg : Config) (st : Engine K V) (ts : Int) (k : K)
    (v : V) (hl : LiveCountOk st) : LiveCountOk (put encLen cfg st ts k v) := by
  intro f
  have hfid : (write encLen cfg st ts k (some v)).2.fileid = st.active_fileid := by
    rw [write_snd]
  have hw := statLive_write_put encLen cfg st ts k v f
  have hcnt := liveCount_ainsert st.keydir k (write encLen cfg st ts k (some v)).2 f
  rw [hfid] at hcnt
  have hlf := hl f
  rw [put_eq]
  rcases hprev : alookup st.keydir k with _ | prev
  · rw [hprev, prevCount_none f] at hcnt
    show statLive (write encLen cfg st ts k (some v)).1.stats f =
      liveCount (ainsert st.keydir k (write encLen cfg st ts k (some v)).2).1 f
    omega
  · rw [hprev, prevCount_some prev f] at hcnt
    show statLive (amodify (write encLen cfg st ts k (some v)).1.stats prev.fileid
        LogStatistics.init (fun s => s.overwrite prev.len)) f =
      liveCount (ainsert st.keydir k (write encLen cfg st ts k (some v)).2).1 f
    rw [statLive_amodify_overwrite]
    have hpf : (if prev.fileid = f then 1 else 0) ≤ liveCount st.keydir f := by
      by_cases h : prev.fileid = f
      · rw [if_pos h]
        have := liveCount_pos_of_mem st.keydir k prev (alookup_mem _ _ _ hprev)
        rw [h] at this
        exact this
      · rw [if_neg h]
        omega
    omega

theorem liveCountOk_delete (cfg : Config) (st : Engine K V) (ts : Int) (k : K)
    (hl : LiveCountOk st) : LiveCountOk (delete encLen cfg st ts k).1 := by
  intro f
  have hw := statLive_write_del encLen cfg st ts k f
  have hcnt := liveCount_aremove st.keydir k f
  have hlf := hl f
  rw [delete_eq]
  rcases hprev : alookup st.keydir k with _ | prev
  · rw [hprev, prevCount_none f] at hcnt
    show statLive (write encLen cfg st ts k none).1.stats f =
      liveCount (aremove st.keydir k).1 f
    omega
  · rw [hprev, prevCount_some prev f] at hcnt
    show statLive (amodify (write encLen cfg st ts k none).1.stats prev.fileid
        LogStatistics.init (fun s => s.overwrite prev.len)) f =
      liveCount (aremove st.keydir k).1 f
    rw [statLive_amodify_overwrite]
    have hpf : (if prev.fileid = f then 1 else 0) ≤ liveCount st.keydir f := by
      by_cases h : prev.fileid = f
      · rw [if_pos h]
        have := liveCount_pos_of_mem st.keydir k prev (alookup_mem _ _ _ hprev)
        rw [h] at this
        exact this
      · rw [if_neg h]
        omega
    omega

theorem get_put_self (hpos : ∀ q, 0 < encLen q) (cfg : Config) (st : Engine K V)
    (ts : Int) (k : K) (v : V) :
    get encLen (put encLen cfg st ts k v) k = some v := by
  rw [get_eq_readAtDisk, put_keydir, put_disk, alookup_ainsert_self]
  simp only
  rw [write_snd]
  simp only
  have := readAtDisk_write_new encLen hpos cfg st ts k (some v)
  rw [this]

theorem get_put_other (cfg : Config) (st : Engine K V) (ts : Int) (k2 k : K)
    (v : V) (hne : k2 ≠ k) (hv : ValidCore encLen st) :
    get encLen (put encLen cfg st ts k v) k2 = get encLen st k2 := by
  rw [get_eq_readAtDisk, get_eq_readAtDisk, put_keydir, put_disk,
    alookup_ainsert_ne _ _ _ _ hne]
  rcases hk : alookup st.keydir k2 with _ | e
  · rfl
  · simp only
    obtain ⟨rec, hr, hrk, hrv⟩ := hv.entries_ok (k2, e) (alookup_mem _ _ _ hk)
    have hb : e.fileid ≤ st.active_fileid :=
      hv.disk_bound _ (readAtDisk_isSome_mem encLen _ _ _ _ _ hr)
    rw [hr, readAtDisk_write encLen cfg st ts k (some v) _ _ _ _ hb hr]

theorem get_delete_self (cfg : Config) (st : Engine K V) (ts : Int) (k : K)
    (hnd : (st.keydir.map Prod.fst).Nodup) :
    get encLen (delete encLen cfg st ts k).1 k = none := by
  rw [get_eq_readAtDisk, delete_keydir, alookup_aremove_self _ _ hnd]

theorem get_delete_other (cfg : Config) (st : Engine K V) (ts : Int) (k2 k : K)
    (hne : k2 ≠ k) (hv : ValidCore encLen st) :
    get encLen (delete encLen cfg st ts k).1 k2 = get encLen st k2 := by
  rw [get_eq_readAtDisk, get_eq_readAtDisk, delete_keydir, delete_disk,
    alookup_aremove_ne _ _ _ hne]
  rcases hk : alookup st.keydir k2 with _ | e
  · rfl
  · simp only
    obtain ⟨rec, hr, hrk, hrv⟩ := hv.entries_ok (k2, e) (alookup_mem _ _ _ hk)
    have hb : e.fileid ≤ st.active_fileid :=
      hv.disk_bound _ (readAtDisk_isSome_mem encLen _ _ _ _ _ hr)
    rw [hr, readAtDisk_write encLen cfg st ts k none _ _ _ _ hb hr]

theorem get_isSome_iff (st : Engine K V) (k : K) (hv : ValidCore encLen st) :
    (get encLen st k).isSome = (alookup st.keydir k).isSome := by
  rw [get_eq_readAtDisk]
  rcases hk : alookup st.keydir k with _ | e
  · rfl
  · simp only
    obtain ⟨rec, hr, hrk, hrv⟩ := hv.entries_ok (k, e) (alookup_mem _ _ _ hk)
    rw [hr]
    simpa using hrv

end StepLemmas

section MergeLemmas

variable {K V : Type} [DecidableEq K] [DecidableEq V]
variable (encLen : DataFileEntry K V → Nat)

theorem readAt_len (seg : List (DataFileEntry K V)) (len pos : Nat)
    (r : DataFileEntry K V) (h : readAt encLen seg len pos = some r) :
    encLen r = len := by
  induction seg generalizing pos with
  | nil => simp [readAt] at h
  | cons q rs ih =>
    rw [readAt] at h
    by_cases h0 : pos = 0
    · rw [if_pos h0] at h
      by_cases h1 : encLen q = len
      · rw [if_pos h1] at h
        injection h with h2
        subst h2
        exact h1
      · rw [if_neg h1] at h
        exact absurd h (by simp)
    · rw [if_neg h0] at h
      by_cases h1 : pos < encLen q
      · rw [if_pos h1] at h
        exact absurd h (by simp)
      · rw [if_neg h1] at h
        exact ih _ h

theorem readAtDisk_congr (d1 d2 : List (Nat × List (DataFileEntry K V)))
    (f len pos : Nat) (h : alookup d1 f = alookup d2 f) :
    readAtDisk encLen d1 f len pos = readAtDisk encLen d2 f len pos := by
  unfold readAtDisk
  rw [h]

theorem mem_keys_aremoveAll_iff {β : Type} (m : List (Nat × β)) (S : List Nat)
    (f : Nat) (hnd : (m.map Prod.fst).Nodup) :
    f ∈ (aremoveAll m S).map Prod.fst ↔ f ∈ m.map Prod.fst ∧ f ∉ S := by
  rw [← alookup_isSome_iff_mem_keys, ← alookup_isSome_iff_mem_keys,
    alookup_aremoveAll m S f hnd]
  by_cases h : f ∈ S
  · simp [h]
  · simp [h]

theorem fileidsToMergeGo_ok (cfg : Config)
    (disk : List (Nat × List (DataFileEntry K V)))
    (stm : List (Nat × LogStatistics))
    (h : ∀ f ∈ stm.map Prod.fst, f ∈ disk.map Prod.fst) :
    ∃ S, fileidsToMergeGo encLen cfg disk stm = .ok S ∧
      ∀ i ∈ S, i ∈ stm.map Prod.fst := by
  induction stm with
  | nil => exact ⟨[], rfl, by simp⟩
  | cons hd tl ih =>
    obtain ⟨fileid, s⟩ := hd
    have hmem : fileid ∈ disk.map Prod.fst := h fileid (by simp)
    rw [← alookup_isSome_iff_mem_keys] at hmem
    rcases hdk : alookup disk fileid with _ | seg
    · rw [hdk] at hmem
      exact absurd hmem (by simp)
    · obtain ⟨S, hS, hSsub⟩ := ih (fun f hf => h f (by simp [hf]))
      by_cases hq : qualifiesB cfg s (segSize encLen seg) = true
      · refine ⟨fileid :: S, ?_, ?_⟩
        · rw [fileidsToMergeGo, hdk, hS]
          simp only
          rw [if_pos hq]
        · intro i hi
          rcases List.mem_cons.mp hi with h2 | h2
          · simp [h2]
          · simp [hSsub i h2]
      · refine ⟨S, ?_, ?_⟩
        · rw [fileidsToMergeGo, hdk, hS]
          simp only
          rw [if_neg hq]
        · intro i hi
          simp [hSsub i hi]

theorem forall2_alookup {R : (K × KeyDirEntry) → (K × KeyDirEntry) → Prop}
    (todo kd : List (K × KeyDirEntry)) (h : List.Forall₂ R todo kd)
    (hfst : ∀ p q, R p q → q.1 = p.1) (k : K) :
    (alookup todo k = none ∧ alookup kd k = none) ∨
    (∃ e e2, alookup todo k = some e ∧ alookup kd k = some e2 ∧
      R (k, e) (k, e2)) := by
  induction h with
  | nil => exact Or.inl ⟨rfl, rfl⟩
  | @cons p q tl1 tl2 hR hrest ih =>
    obtain ⟨p1, p2⟩ := p
    obtain ⟨q1, q2⟩ := q
    have hq1 : q1 = p1 := hfst _ _ hR
    subst hq1
    by_cases hk : q1 = k
    · subst hk
      right
      refine ⟨p2, q2, ?_, ?_, ?_⟩
      · rw [alookup, if_pos rfl]
      · rw [alookup, if_pos rfl]
      · exact hR
    · have s1 : alookup ((q1, p2) :: tl1) k = alookup tl1 k := by
        rw [alookup, if_neg hk]
      have s2 : alookup ((q1, q2) :: tl2) k = alookup tl2 k := by
        rw [alookup, if_neg hk]
      rw [s1, s2]
      exact ih

theorem forall2_liveCount_zero {A : Nat} {S : List Nat}
    {disk0 diskF : List (Nat × List (DataFileEntry K V))} {hi : Nat}
    (todo kd : List (K × KeyDirEntry))
    (h : List.Forall₂ (MergeEntryRel encLen A S disk0 diskF hi) todo kd)
    (hS : ∀ i ∈ S, i ≤ A)
    (hbound : ∀ p ∈ todo, p.2.fileid ≤ A)
    (f : Nat) (hf : f ∈ S) : liveCount kd f = 0 := by
  induction h with
  | nil => rfl
  | @cons p q tl1 tl2 hR hrest ih =>
    rw [liveCount_cons]
    have hfA : f ≤ A := hS f hf
    have h0 : ¬ q.2.fileid = f := by
      by_cases hps : p.2.fileid ∈ S
      · have := (hR.2.2.1 hps).1
        omega
      · rw [hR.2.1 hps]
        intro hc
        rw [hc] at hps
        exact hps hf
    rw [if_neg h0, ih (fun p hp => hbound p (List.mem_cons_of_mem _ hp))]

theorem forall2_liveCount_old {A : Nat} {S : List Nat}
    {disk0 diskF : List (Nat × List (DataFileEntry K V))} {hi : Nat}
    (todo kd : List (K × KeyDirEntry))
    (h : List.Forall₂ (MergeEntryRel encLen A S disk0 diskF hi) todo kd)
    (f : Nat) (hfS : f ∉ S) (hfA : f ≤ A) :
    liveCount kd f = liveCount todo f := by
  induction h with
  | nil => rfl
  | @cons p q tl1 tl2 hR hrest ih =>
    rw [liveCount_cons, liveCount_cons, ih]
    by_cases hps : p.2.fileid ∈ S
    · have hgt := (hR.2.2.1 hps).1
      have h1 : ¬ q.2.fileid = f := by omega
      have h2 : ¬ p.2.fileid = f := by
        intro hc
        rw [hc] at hps
        exact hfS hps
      rw [if_neg h1, if_neg h2]
    · rw [hR.2.1 hps]

theorem forall2_keys {R : (K × KeyDirEntry) → (K × KeyDirEntry) → Prop}
    (todo kd : List (K × KeyDirEntry)) (h : List.Forall₂ R todo kd)
    (hfst : ∀ p q, R p q → q.1 = p.1) :
    kd.map Prod.fst = todo.map Prod.fst := by
  induction h with
  | nil => rfl
  | @cons p q tl1 tl2 hR hrest ih =>
    rw [List.map_cons, List.map_cons, ih, hfst _ _ hR]

theorem segSize_append (seg : List (DataFileEntry K V)) (r : DataFileEntry K V) :
    segSize encLen (seg ++ [r]) = segSize encLen seg + encLen r := by
  simp [segSize]

theorem mergeAppend_snd (cfg : Config) (acc : MergeState K V) (k : K)
    (e : KeyDirEntry) (rec : DataFileEntry K V) :
    (mergeAppend cfg acc k e rec).2 = ⟨acc.fileid, e.len, acc.pos, e.tstamp⟩ := rfl

theorem mergeAppend_shape (cfg : Config) (acc : MergeState K V) (k : K)
    (e : KeyDirEntry) (rec : DataFileEntry K V) :
    ((mergeAppend cfg acc k e rec).1.fileid = acc.fileid ∧
     (mergeAppend cfg acc k e rec).1.pos = acc.pos + e.len ∧
     (mergeAppend cfg acc k e rec).1.disk =
       (ainsert acc.disk acc.fileid
         (((alookup acc.disk acc.fileid).getD []) ++ [rec])).1 ∧
     (mergeAppend cfg acc k e rec).1.hints =
       (ainsert acc.hints acc.fileid
         (((alookup acc.hints acc.fileid).getD []) ++ [⟨e.tstamp, e.len, acc.pos, k⟩])).1 ∧
     (mergeAppend cfg acc k e rec).1.stats =
       amodify acc.stats acc.fileid LogStatistics.init LogStatistics.add_live ∧
     (mergeAppend cfg acc k e rec).1.used = acc.used) ∨
    ((mergeAppend cfg acc k e rec).1.fileid = acc.fileid + 1 ∧
     (mergeAppend cfg acc k e rec).1.pos = 0 ∧
     (mergeAppend cfg acc k e rec).1.disk =
       (ainsert (ainsert acc.disk acc.fileid
           (((alookup acc.disk acc.fileid).getD []) ++ [rec])).1
         (acc.fileid + 1) []).1 ∧
     (mergeAppend cfg acc k e rec).1.hints =
       (ainsert (ainsert acc.hints acc.fileid
           (((alookup acc.hints acc.fileid).getD []) ++ [⟨e.tstamp, e.len, acc.pos, k⟩])).1
         (acc.fileid + 1) []).1 ∧
     (mergeAppend cfg acc k e rec).1.stats =
       amodify acc.stats acc.fileid LogStatistics.init LogStatistics.add_live ∧
     (mergeAppend cfg acc k e rec).1.used = acc.used ++ [acc.fileid + 1]) := by
  simp only [mergeAppend]
  split
  · right
    exact ⟨rfl, rfl, rfl, rfl, rfl, rfl⟩
  · left
    exact ⟨rfl, rfl, rfl, rfl, rfl, rfl⟩

theorem mergeAppend_spec (hpos : ∀ q, 0 < encLen q) (cfg : Config) (A : Nat)
    (disk0 : List (Nat × List (DataFileEntry K V)))
    (stats0 : List (Nat × LogStatistics)) (acc : MergeState K V) (k : K)
    (e : KeyDirEntry) (rec : DataFileEntry K V)
    (hInv : MergeAccInv encLen A disk0 stats0 acc)
    (hlen : encLen rec = e.len) :
    MergeAccInv encLen A disk0 stats0 (mergeAppend cfg acc k e rec).1 ∧
    acc.fileid ≤ (mergeAppend cfg acc k e rec).1.fileid ∧
    (∀ f len pos r, readAtDisk encLen acc.disk f len pos = some r →
      readAtDisk encLen (mergeAppend cfg acc k e rec).1.disk f len pos = some r) ∧
    readAtDisk encLen (mergeAppend cfg acc k e rec).1.disk acc.fileid e.len acc.pos =
      some rec ∧
    (∀ f, statLive (mergeAppend cfg acc k e rec).1.stats f =
      statLive acc.stats f + (if acc.fileid = f then 1 else 0)) ∧
    (∃ ext, (mergeAppend cfg acc k e rec).1.used = acc.used ++ ext) := by
  have hbase : readAtDisk encLen
      (ainsert acc.disk acc.fileid
        (((alookup acc.disk acc.fileid).getD []) ++ [rec])).1
      acc.fileid e.len acc.pos = some rec := by
    unfold readAtDisk
    rw [alookup_ainsert_self]
    simp only [Option.getD_some]
    rw [hInv.pos_eq, ← hlen]
    exact readAt_last encLen hpos _ _
  have hpres : ∀ f len pos r, readAtDisk encLen acc.disk f len pos = some r →
      readAtDisk encLen
        (ainsert acc.disk acc.fileid
          (((alookup acc.disk acc.fileid).getD []) ++ [rec])).1 f len pos = some r :=
    fun f len pos r h =>
      readAtDisk_preserved_ainsert_append encLen acc.disk acc.fileid [rec] f len pos r h
  rcases mergeAppend_shape cfg acc k e rec with
    ⟨hfid, hp, hd, hh, hst, hu⟩ | ⟨hfid, hp, hd, hh, hst, hu⟩
  · refine ⟨?_, by omega, ?_, ?_, ?_, ⟨[], by simp [hu]⟩⟩
    · constructor
      · rw [hfid]
        exact hInv.fid_gt
      · intro f hf
        rw [hd]
        rw [alookup_ainsert_ne _ _ _ _ (by have := hInv.fid_gt; omega : f ≠ acc.fileid)]
        exact hInv.old_pres f hf
      · rw [hfid, hp, hd, alookup_ainsert_self]
        simp only [Option.getD_some]
        rw [segSize_append, hlen, hInv.pos_eq]
      · rw [hd]
        exact nodup_keys_ainsert _ _ _ hInv.disk_nodup
      · intro f hf
        rw [hfid]
        rw [hd] at hf
        rcases (mem_keys_ainsert _ _ _ _).mp hf with h | h
        · omega
        · exact hInv.disk_bound f h
      · rw [hh]
        exact nodup_keys_ainsert _ _ _ hInv.hints_nodup
      · intro f hf
        rw [hfid]
        rw [hh] at hf
        rcases (mem_keys_ainsert _ _ _ _).mp hf with h | h
        · omega
        · exact hInv.hints_bound f h
      · rw [hst]
        exact nodup_keys_amodify _ _ _ _ hInv.stats_nodup
      · intro f hf
        rw [hd]
        rw [hst] at hf
        rcases (mem_keys_amodify _ _ _ _ _).mp hf with h | h
        · exact (mem_keys_ainsert _ _ _ _).mpr (Or.inl h)
        · exact (mem_keys_ainsert _ _ _ _).mpr (Or.inr (hInv.stats_sub f h))
      · intro f hf
        rw [hst]
        rw [alookup_amodify_ne _ _ _ _ _ (by have := hInv.fid_gt; omega : f ≠ acc.fileid)]
        exact hInv.stats_old f hf
      · rw [hu]
        exact hInv.used_chain
      · intro u hu2
        rw [hfid]
        rw [hu] at hu2
        exact hInv.used_bound u hu2
    · intro f len pos r h
      rw [hd]
      exact hpres f len pos r h
    · rw [hd]
      exact hbase
    · intro f
      rw [hst]
      exact statLive_amodify_add_live acc.stats acc.fileid f
  · have hd_pres : ∀ f len pos r, readAtDisk encLen acc.disk f len pos = some r →
        readAtDisk encLen (mergeAppend cfg acc k e rec).1.disk f len pos = some r := by
      intro f len pos r h
      rw [hd]
      have hmem : f ∈ acc.disk.map Prod.fst :=
        readAtDisk_isSome_mem encLen _ _ _ _ _ h
      have hb := hInv.disk_bound f hmem
      exact readAtDisk_preserved_ainsert_ne encLen _ _ _ _ _ _ _
        (by omega : f ≠ acc.fileid + 1) (hpres f len pos r h)
    refine ⟨?_, by omega, hd_pres, ?_, ?_, ⟨[acc.fileid + 1], by simp [hu]⟩⟩
    · constructor
      · rw [hfid]
        have := hInv.fid_gt
        omega
      · intro f hf
        rw [hd]
        have h1 : f ≠ acc.fileid + 1 := by
          have := hInv.fid_gt
          omega
        have h2 : f ≠ acc.fileid := by
          have := hInv.fid_gt
          omega
        rw [alookup_ainsert_ne _ _ _ _ h1, alookup_ainsert_ne _ _ _ _ h2]
        exact hInv.old_pres f hf
      · rw [hfid, hp, hd, alookup_ainsert_self]
        simp [segSize]
      · rw [hd]
        exact nodup_keys_ainsert _ _ _ (nodup_keys_ainsert _ _ _ hInv.disk_nodup)
      · intro f hf
        rw [hfid]
        rw [hd] at hf
        rcases (mem_keys_ainsert _ _ _ _).mp hf with h | h
        · omega
        · rcases (mem_keys_ainsert _ _ _ _).mp h with h2 | h2
          · omega
          · have := hInv.disk_bound f h2
            omega
      · rw [hh]
        exact nodup_keys_ainsert _ _ _ (nodup_keys_ainsert _ _ _ hInv.hints_nodup)
      · intro f hf
        rw [hfid]
        rw [hh] at hf
        rcases (mem_keys_ainsert _ _ _ _).mp hf with h | h
        · omega
        · rcases (mem_keys_ainsert _ _ _ _).mp h with h2 | h2
          · omega
          · have := hInv.hints_bound f h2
            omega
      · rw [hst]
        exact nodup_keys_amodify _ _ _ _ hInv.stats_nodup
      · intro f hf
        rw [hd]
        rw [hst] at hf
        rcases (mem_keys_amodify _ _ _ _ _).mp hf with h | h
        · exact (mem_keys_ainsert _ _ _ _).mpr
            (Or.inr ((mem_keys_ainsert _ _ _ _).mpr (Or.inl h)))
        · exact (mem_keys_ainsert _ _ _ _).mpr
            (Or.inr ((mem_keys_ainsert _ _ _ _).mpr (Or.inr (hInv.stats_sub f h))))
      · intro f hf
        rw [hst]
        rw [alookup_amodify_ne _ _ _ _ _ (by have := hInv.fid_gt; omega : f ≠ acc.fileid)]
        exact hInv.stats_old f hf
      · rw [hu]
        refine chain_append_lt acc.used _ hInv.used_chain (fun u hu2 => ?_)
        have := hInv.used_bound u hu2
        omega
      · intro u hu2
        rw [hfid]
        rw [hu] at hu2
        rcases List.mem_append.mp hu2 with h | h
        · have := hInv.used_bound u h
          omega
        · simp at h
          omega
    · rw [hd]
      exact readAtDisk_preserved_ainsert_ne encLen _ _ _ _ _ _ _
        (by have := hInv.fid_gt; omega : acc.fileid ≠ acc.fileid + 1) hbase
    · intro f
      rw [hst]
      exact statLive_amodify_add_live acc.stats acc.fileid f

theorem mergeLoop_spec (hpos : ∀ q, 0 < encLen q) (cfg : Config) (S : List Nat)
    (A : Nat) (disk0 : List (Nat × List (DataFileEntry K V)))
    (stats0 : List (Nat × LogStatistics)) (hS : ∀ i ∈ S, i ≤ A)
    (todo : List (K × KeyDirEntry)) :
    ∀ (acc : MergeState K V),
    MergeAccInv encLen A disk0 stats0 acc →
    (∀ p ∈ todo, EntryOk encLen disk0 p.1 p.2) →
    (∀ p ∈ todo, p.2.fileid ≤ A) →
    ∃ kd accF, mergeLoop encLen cfg S todo acc = .ok (kd, accF) ∧
      MergeAccInv encLen A disk0 stats0 accF ∧
      acc.fileid ≤ accF.fileid ∧
      (∀ f len pos r, readAtDisk encLen acc.disk f len pos = some r →
        readAtDisk encLen accF.disk f len pos = some r) ∧
      List.Forall₂ (MergeEntryRel encLen A S disk0 accF.disk accF.fileid) todo kd ∧
      (∀ f, f ≤ A → statLive accF.stats f = statLive acc.stats f) ∧
      (∀ f, A < f → statLive accF.stats f = statLive acc.stats f + liveCount kd f) ∧
      (∃ ext, accF.used = acc.used ++ ext) := by
  induction todo with
  | nil =>
    intro acc hInv _ _
    exact ⟨[], acc, rfl, hInv, le_refl _, fun f len pos r h => h, List.Forall₂.nil,
      fun f _ => rfl, fun f _ => by simp [liveCount], ⟨[], by simp⟩⟩
  | cons hd rest ih =>
    obtain ⟨k, e⟩ := hd
    intro acc hInv htodo hbnd
    have htodo_rest : ∀ p ∈ rest, EntryOk encLen disk0 p.1 p.2 :=
      fun p hp => htodo p (List.mem_cons_of_mem _ hp)
    have hbnd_rest : ∀ p ∈ rest, p.2.fileid ≤ A :=
      fun p hp => hbnd p (List.mem_cons_of_mem _ hp)
    have hbA : e.fileid ≤ A := hbnd (k, e) (List.mem_cons_self _ _)
    obtain ⟨rec, hr00, hkk0, hvv0⟩ := htodo (k, e) (List.mem_cons_self _ _)
    have hr0 : readAtDisk encLen disk0 e.fileid e.len e.pos = some rec := hr00
    have hkk : rec.key = k := hkk0
    by_cases hin : e.fileid ∈ S
    · have hsrc : alookup acc.disk e.fileid = alookup disk0 e.fileid :=
        hInv.old_pres _ hbA
      rcases hl0 : alookup disk0 e.fileid with _ | srcSeg
      · exfalso
        unfold readAtDisk at hr0
        rw [hl0] at hr0
        simp only [Option.getD_none] at hr0
        rw [readAt] at hr0
        exact absurd hr0 (by simp)
      · have hread : readAt encLen srcSeg e.len e.pos = some rec := by
          unfold readAtDisk at hr0
          rw [hl0] at hr0
          simpa using hr0
        have hlen : encLen rec = e.len := readAt_len encLen srcSeg _ _ _ hread
        obtain ⟨hInv2, hfle, hpres2, hnew, hstl, hux2⟩ :=
          mergeAppend_spec encLen hpos cfg A disk0 stats0 acc k e rec hInv hlen
        obtain ⟨kd, accF, hok, hInvF, hle, hrd, hrel, hsl, hsg, hux⟩ :=
          ih (mergeAppend cfg acc k e rec).1 hInv2 htodo_rest hbnd_rest
        refine ⟨(k, (mergeAppend cfg acc k e rec).2) :: kd, accF, ?_, hInvF,
          le_trans hfle hle, ?_, ?_, ?_, ?_, ?_⟩
        · rw [mergeLoop, if_pos hin, hsrc, hl0]
          simp only
          rw [hread]
          simp only
          rw [hok]
        · intro f len pos r h
          exact hrd f len pos r (hpres2 f len pos r h)
        · refine List.Forall₂.cons ?_ hrel
          rw [mergeAppend_snd]
          refine ⟨rfl, fun hns => absurd hin hns, fun _ => ?_, ⟨rec, hr0, ?_⟩⟩
          · exact ⟨hInv.fid_gt, le_trans hfle hle⟩
          · exact hrd _ _ _ _ hnew
        · intro f hf
          rw [hsl f hf, hstl f,
            if_neg (by have := hInv.fid_gt; omega : ¬ acc.fileid = f)]
          omega
        · intro f hf
          rw [hsg f hf, hstl f, liveCount_cons, mergeAppend_snd]
          simp only
          omega
        · obtain ⟨e1, he1⟩ := hux2
          obtain ⟨e2x, he2⟩ := hux
          exact ⟨e1 ++ e2x, by rw [he2, he1, List.append_assoc]⟩
    · obtain ⟨kd, accF, hok, hInvF, hle, hrd, hrel, hsl, hsg, hux⟩ :=
        ih acc hInv htodo_rest hbnd_rest
      refine ⟨(k, e) :: kd, accF, ?_, hInvF, hle, hrd, ?_, hsl, ?_, hux⟩
      · rw [mergeLoop, if_neg hin, hok]
      · refine List.Forall₂.cons ?_ hrel
        refine ⟨rfl, fun _ => rfl, fun hc => absurd hc hin, ⟨rec, hr0, ?_⟩⟩
        have heq : alookup accF.disk e.fileid = alookup disk0 e.fileid :=
          hInvF.old_pres e.fileid hbA
        rw [readAtDisk_congr encLen accF.disk disk0 _ _ _ heq]
        exact hr0
      · intro f hf
        rw [hsg f hf, liveCount_cons]
        have h0 : ¬ ((k, e) : K × KeyDirEntry).2.fileid = f := by
          simp only
          omega
        rw [if_neg h0]
        omega

theorem forall2_mem_right {α : Type} {R : α → α → Prop} (l1 l2 : List α)
    (h : List.Forall₂ R l1 l2) (q : α) (hq : q ∈ l2) : ∃ p ∈ l1, R p q := by
  induction h with
  | nil => simp at hq
  | @cons p0 q0 tl1 tl2 hR hrest ih =>
    rcases List.mem_cons.mp hq with h2 | h2
    · exact ⟨p0, List.mem_cons_self _ _, h2 ▸ hR⟩
    · obtain ⟨p, hp, hpR⟩ := ih h2
      exact ⟨p, List.mem_cons_of_mem _ hp, hpR⟩

theorem merge_spec (hpos : ∀ q, 0 < encLen q) (cfg : Config) (st : Engine K V)
    (hv : ValidCore encLen st) (hl : LiveCountOk st) :
    ∃ S st2, fileids_to_merge encLen cfg st = .ok S ∧
      merge encLen cfg st = .ok st2 ∧
      ValidCore encLen st2 ∧ LiveCountOk st2 ∧
      st.active_fileid < st2.active_fileid ∧
      (∀ k, get encLen st2 k = get encLen st k) ∧
      (∀ f ∈ S, alookup st2.stats f = none ∧ alookup st2.disk f = none ∧
        alookup st2.hints f = none) ∧
      (∀ k e, alookup st.keydir k = some e → e.fileid ∈ S →
        ∃ e2, alookup st2.keydir k = some e2 ∧ st.active_fileid < e2.fileid ∧
          e2.fileid < st2.active_fileid) := by
  obtain ⟨S, hSgo, hSsub⟩ := fileidsToMergeGo_ok encLen cfg st.disk st.stats hv.stats_sub
  have hSok : fileids_to_merge encLen cfg st = .ok S := hSgo
  have hSA : ∀ i ∈ S, i ≤ st.active_fileid :=
    fun i hi => hv.disk_bound i (hv.stats_sub i (hSsub i hi))
  have hInv0 : MergeAccInv encLen st.active_fileid st.disk st.stats
      ⟨st.active_fileid + 1, 0, (ainsert st.disk (st.active_fileid + 1) []).1,
        (ainsert st.hints (st.active_fileid + 1) []).1, st.stats,
        st.used ++ [st.active_fileid + 1]⟩ := by
    constructor
    · dsimp only
      omega
    · intro f hf
      dsimp only
      exact alookup_ainsert_ne _ _ _ _ (by omega)
    · show (0 : Nat) = segSize encLen
        ((alookup (ainsert st.disk (st.active_fileid + 1) []).1
          (st.active_fileid + 1)).getD [])
      rw [alookup_ainsert_self]
      rfl
    · exact nodup_keys_ainsert _ _ _ hv.disk_nodup
    · intro f hf
      dsimp only
      dsimp only at hf
      rcases (mem_keys_ainsert _ _ _ _).mp hf with h | h
      · omega
      · have := hv.disk_bound f h
        omega
    · exact nodup_keys_ainsert _ _ _ hv.hints_nodup
    · intro f hf
      dsimp only
      dsimp only at hf
      rcases (mem_keys_ainsert _ _ _ _).mp hf with h | h
      · omega
      · have := hv.hints_bound f h
        omega
    · exact hv.stats_nodup
    · intro f hf
      dsimp only
      dsimp only at hf
      exact (mem_keys_ainsert _ _ _ _).mpr (Or.inr (hv.stats_sub f hf))
    · intro f hf
      rfl
    · exact chain_append_lt st.used _ hv.used_chain
        (fun u hu => by have := hv.used_bound u hu; omega)
    · intro u hu
      dsimp only
      dsimp only at hu
      rcases List.mem_append.mp hu with h | h
      · have := hv.used_bound u h
        omega
      · simp at h
        omega
  have hbnd : ∀ p ∈ st.keydir, p.2.fileid ≤ st.active_fileid := by
    intro p hp
    obtain ⟨rec, hr, _, _⟩ := hv.entries_ok p hp
    exact hv.disk_bound _ (readAtDisk_isSome_mem encLen _ _ _ _ _ hr)
  obtain ⟨kd, accF, hok, hInvF, hle, hrd, hrel, hsl, hsg, hux⟩ :=
    mergeLoop_spec encLen hpos cfg S st.active_fileid st.disk st.stats hSA
      st.keydir _ hInv0 hv.entries_ok hbnd
  have hAle : st.active_fileid + 1 ≤ accF.fileid := hle
  have hfst : ∀ p q, MergeEntryRel encLen st.active_fileid S st.disk accF.disk
      accF.fileid p q → q.1 = p.1 := fun p q hR => hR.1
  -- the final state
  refine ⟨S, new_active_datafile
    { st with keydir := kd,
              merged := st.merged ++ S.filter (fun i => decide (i ∉ st.merged)),
              stats := aremoveAll accF.stats S,
              disk := aremoveAll accF.disk S,
              hints := aremoveAll accF.hints S,
              used := accF.used } (accF.fileid + 1), hSok, ?_, ?_, ?_, ?_, ?_, ?_, ?_⟩
  · -- merge computes to this state
    show merge encLen cfg st = _
    simp only [merge]
    rw [hSok]
    simp only
    rw [hok]
  · -- ValidCore
    have hbq : ∀ q ∈ kd, q.2.fileid ∉ S ∧ q.2.fileid ≤ accF.fileid := by
      intro q hq
      obtain ⟨p, hp, hR⟩ := forall2_mem_right _ _ hrel q hq
      by_cases hps : p.2.fileid ∈ S
      · obtain ⟨h1, h2⟩ := hR.2.2.1 hps
        have : q.2.fileid ∉ S := fun hc => by
          have := hSA _ hc
          omega
        exact ⟨this, h2⟩
      · rw [hR.2.1 hps]
        refine ⟨hps, ?_⟩
        have := hbnd p hp
        omega
    have htrans : ∀ f, f ∉ S → f ≤ accF.fileid →
        alookup ((ainsert (aremoveAll accF.disk S) (accF.fileid + 1) []).1) f =
          alookup accF.disk f := by
      intro f hfS hfb
      rw [alookup_ainsert_ne _ _ _ _ (by omega : f ≠ accF.fileid + 1)]
      rw [alookup_aremoveAll _ _ _ hInvF.disk_nodup, if_neg hfS]
    constructor
    · show (kd.map Prod.fst).Nodup
      rw [forall2_keys _ _ hrel hfst]
      exact hv.kd_nodup
    · show ((aremoveAll accF.stats S).map Prod.fst).Nodup
      exact nodup_keys_aremoveAll _ _ hInvF.stats_nodup
    · show (((ainsert (aremoveAll accF.disk S) (accF.fileid + 1) []).1).map Prod.fst).Nodup
      exact nodup_keys_ainsert _ _ _ (nodup_keys_aremoveAll _ _ hInvF.disk_nodup)
    · show ((aremoveAll accF.hints S).map Prod.fst).Nodup
      exact nodup_keys_aremoveAll _ _ hInvF.hints_nodup
    · intro f hf
      show f ≤ accF.fileid + 1
      rcases (mem_keys_ainsert _ _ _ _).mp hf with h | h
      · omega
      · have := hInvF.disk_bound f (mem_keys_aremoveAll _ _ _ h)
        omega
    · intro f hf
      show f ≤ accF.fileid + 1
      have := hInvF.hints_bound f (mem_keys_aremoveAll _ _ _ hf)
      omega
    · intro f hf
      have h2 := (mem_keys_aremoveAll_iff accF.stats S f hInvF.stats_nodup).mp hf
      have h3 : f ∈ accF.disk.map Prod.fst := hInvF.stats_sub f h2.1
      exact (mem_keys_ainsert _ _ _ _).mpr
        (Or.inr ((mem_keys_aremoveAll_iff accF.disk S f hInvF.disk_nodup).mpr
          ⟨h3, h2.2⟩))
    · intro q hq
      obtain ⟨p, hp, hR⟩ := forall2_mem_right _ _ hrel q hq
      obtain ⟨rec, hr1, hr2⟩ := hR.2.2.2
      obtain ⟨rec2, hr1b, hkk, hvv⟩ := hv.entries_ok p hp
      have hrec : rec2 = rec := by
        rw [hr1] at hr1b
        injection hr1b with hx
        exact hx.symm
      subst hrec
      obtain ⟨hqS, hqB⟩ := hbq q hq
      refine ⟨rec2, ?_, ?_, hvv⟩
      · show readAtDisk encLen ((ainsert (aremoveAll accF.disk S)
          (accF.fileid + 1) []).1) q.2.fileid q.2.len q.2.pos = some rec2
        rw [readAtDisk_congr encLen _ accF.disk _ _ _ (htrans _ hqS hqB)]
        exact hr2
      · rw [hkk, ← hR.1]
    · show List.Chain' (· < ·) (accF.used ++ [accF.fileid + 1])
      exact chain_append_lt accF.used _ hInvF.used_chain
        (fun u hu => by have := hInvF.used_bound u hu; omega)
    · intro u hu
      show u ≤ accF.fileid + 1
      rcases List.mem_append.mp hu with h | h
      · have := hInvF.used_bound u h
        omega
      · simp at h
        omega
  · -- LiveCountOk
    intro f
    show statLive (aremoveAll accF.stats S) f = liveCount kd f
    rw [statLive, alookup_aremoveAll _ _ _ hInvF.stats_nodup]
    by_cases hfS : f ∈ S
    · rw [if_pos hfS]
      rw [forall2_liveCount_zero encLen _ _ hrel hSA hbnd f hfS]
      rfl
    · rw [if_neg hfS]
      by_cases hfA : f ≤ st.active_fileid
      · rw [show ((alookup accF.stats f).getD LogStatistics.init).live_keys =
          statLive accF.stats f from rfl]
        rw [hsl f hfA]
        rw [forall2_liveCount_old encLen _ _ hrel f hfS hfA]
        exact hl f
      · rw [show ((alookup accF.stats f).getD LogStatistics.init).live_keys =
          statLive accF.stats f from rfl]
        rw [hsg f (by omega)]
        have h0 : alookup st.stats f = none := by
          apply alookup_eq_none_of_not_mem
          intro hmem
          have := hv.disk_bound f (hv.stats_sub f hmem)
          omega
        show statLive st.stats f + liveCount kd f = liveCount kd f
        rw [statLive, h0]
        simp [LogStatistics.init]
  · show st.active_fileid < accF.fileid + 1
    omega
  · -- get preserved
    intro k
    rcases forall2_alookup _ _ hrel hfst k with ⟨h1, h2⟩ | ⟨e, e2, h1, h2, hR⟩
    · rw [get_eq_readAtDisk, get_eq_readAtDisk]
      rw [show (new_active_datafile
        { st with keydir := kd,
                  merged := st.merged ++ S.filter (fun i => decide (i ∉ st.merged)),
                  stats := aremoveAll accF.stats S,
                  disk := aremoveAll accF.disk S,
                  hints := aremoveAll accF.hints S,
                  used := accF.used } (accF.fileid + 1)).keydir = kd from rfl]
      rw [h1, h2]
    · rw [get_eq_readAtDisk, get_eq_readAtDisk]
      rw [show (new_active_datafile
        { st with keydir := kd,
                  merged := st.merged ++ S.filter (fun i => decide (i ∉ st.merged)),
                  stats := aremoveAll accF.stats S,
                  disk := aremoveAll accF.disk S,
                  hints := aremoveAll accF.hints S,
                  used := accF.used } (accF.fileid + 1)).keydir = kd from rfl]
      rw [h1, h2]
      simp only
      obtain ⟨rec, hr1, hr2⟩ := hR.2.2.2
      have hq2 : e2.fileid ∉ S ∧ e2.fileid ≤ accF.fileid := by
        by_cases hps : e.fileid ∈ S
        · have hg := hR.2.2.1 hps
          have hg1 : st.active_fileid < e2.fileid := hg.1
          have hg2 : e2.fileid ≤ accF.fileid := hg.2
          refine ⟨fun hc => ?_, hg2⟩
          have := hSA _ hc
          omega
        · have he2 : e2 = e := hR.2.1 hps
          rw [he2]
          refine ⟨hps, ?_⟩
          have hmem := readAtDisk_isSome_mem encLen _ _ _ _ _ hr1
          have hb2 : e.fileid ≤ st.active_fileid := hv.disk_bound _ hmem
          omega
      have htrans2 : alookup ((ainsert (aremoveAll accF.disk S)
          (accF.fileid + 1) []).1) e2.fileid = alookup accF.disk e2.fileid := by
        rw [alookup_ainsert_ne _ _ _ _ (by omega : e2.fileid ≠ accF.fileid + 1)]
        rw [alookup_aremoveAll _ _ _ hInvF.disk_nodup, if_neg hq2.1]
      rw [show (new_active_datafile
        { st with keydir := kd,
                  merged := st.merged ++ S.filter (fun i => decide (i ∉ st.merged)),
                  stats := aremoveAll accF.stats S,
                  disk := aremoveAll accF.disk S,
                  hints := aremoveAll accF.hints S,
                  used := accF.used } (accF.fileid + 1)).disk =
        (ainsert (aremoveAll accF.disk S) (accF.fileid + 1) []).1 from rfl]
      rw [readAtDisk_congr encLen _ accF.disk _ _ _ htrans2, hr2, hr1]
  · -- S removed
    intro f hf
    have hfA := hSA f hf
    refine ⟨?_, ?_, ?_⟩
    · show alookup (aremoveAll accF.stats S) f = none
      rw [alookup_aremoveAll _ _ _ hInvF.stats_nodup, if_pos hf]
    · show alookup ((ainsert (aremoveAll accF.disk S) (accF.fileid + 1) []).1) f = none
      rw [alookup_ainsert_ne _ _ _ _ (by omega : f ≠ accF.fileid + 1)]
      rw [alookup_aremoveAll _ _ _ hInvF.disk_nodup, if_pos hf]
    · show alookup (aremoveAll accF.hints S) f = none
      rw [alookup_aremoveAll _ _ _ hInvF.hints_nodup, if_pos hf]
  · -- repointed entries
    intro k e hke hin
    rcases forall2_alookup _ _ hrel hfst k with ⟨h1, h2⟩ | ⟨e1, e2, h1, h2, hR⟩
    · rw [hke] at h1
      exact absurd h1 (by simp)
    · rw [hke] at h1
      injection h1 with h1
      subst h1
      have hg := hR.2.2.1 hin
      have hg1 : st.active_fileid < e2.fileid := hg.1
      have hg2 : e2.fileid ≤ accF.fileid := hg.2
      refine ⟨e2, ?_, hg1, ?_⟩
      · show alookup kd k = some e2
        exact h2
      · show e2.fileid < accF.fileid + 1
        omega

end MergeLemmas

section RunLemmas

variable {K V : Type} [DecidableEq K] [DecidableEq V]
variable (encLen : DataFileEntry K V → Nat)

theorem valid_init : Valid encLen (init : Engine K V) := by
  refine ⟨⟨?_, ?_, ?_, ?_, ?_, ?_, ?_, ?_, ?_, ?_⟩, ?_⟩
  · simp [init]
  · simp [init]
  · simp [init]
  · simp [init]
  · intro f hf
    simp [init] at hf
    simp [init, hf]
  · intro f hf
    simp [init] at hf
  · intro f hf
    simp [init] at hf
  · intro p hp
    simp [init] at hp
  · simp [init]
  · intro u hu
    simp [init] at hu
    simp [init, hu]
  · intro f
    simp [init, statLive, liveCount, alookup, LogStatistics.init]

theorem valid_step (hpos : ∀ q, 0 < encLen q) (cfg : Config) (st : Engine K V)
    (op : Op K V) (hv : Valid encLen st) : Valid encLen (step encLen cfg st op) := by
  obtain ⟨hvc, hl⟩ := hv
  cases op with
  | putOp ts k v =>
    exact ⟨validCore_put encLen hpos cfg st ts k v hvc,
      liveCountOk_put encLen cfg st ts k v hl⟩
  | delOp ts k =>
    exact ⟨validCore_delete encLen cfg st ts k hvc,
      liveCountOk_delete encLen cfg st ts k hl⟩
  | mergeOp =>
    obtain ⟨S, st2, hSok, hm, hvc2, hl2, _, _, _, _⟩ :=
      merge_spec encLen hpos cfg st hvc hl
    show Valid encLen
      (match merge encLen cfg st with
       | .ok st2 => st2
       | .error _ => st)
    rw [hm]
    exact ⟨hvc2, hl2⟩

theorem valid_foldl (hpos : ∀ q, 0 < encLen q) (cfg : Config)
    (ops : List (Op K V)) :
    ∀ st, Valid encLen st → Valid encLen (ops.foldl (step encLen cfg) st) := by
  induction ops with
  | nil => exact fun st h => h
  | cons op rest ih =>
    intro st h
    exact ih _ (valid_step encLen hpos cfg st op h)

theorem valid_run (hpos : ∀ q, 0 < encLen q) (cfg : Config)
    (ops : List (Op K V)) : Valid encLen (run encLen cfg ops) :=
  valid_foldl encLen hpos cfg ops init (valid_init encLen)

theorem get_step_avoid (hpos : ∀ q, 0 < encLen q) (cfg : Config)
    (st : Engine K V) (op : Op K V) (k : K) (hv : Valid encLen st)
    (ha : avoidsKey k op) :
    get encLen (step encLen cfg st op) k = get encLen st k := by
  cases op with
  | putOp ts k2 v =>
    have ha2 : k2 ≠ k := ha
    exact get_put_other encLen cfg st ts k k2 v (fun hh => ha2 hh.symm) hv.1
  | delOp ts k2 =>
    have ha2 : k2 ≠ k := ha
    exact get_delete_other encLen cfg st ts k k2 (fun hh => ha2 hh.symm) hv.1
  | mergeOp =>
    obtain ⟨S, st2, hSok, hm, _, _, _, hget, _, _⟩ :=
      merge_spec encLen hpos cfg st hv.1 hv.2
    show get encLen
      (match merge encLen cfg st with
       | .ok st2 => st2
       | .error _ => st) k = get encLen st k
    rw [hm]
    exact hget k

theorem get_foldl_avoid (hpos : ∀ q, 0 < encLen q) (cfg : Config)
    (ops : List (Op K V)) (k : K) :
    ∀ st, Valid encLen st → (∀ op ∈ ops, avoidsKey k op) →
    get encLen (ops.foldl (step encLen cfg) st) k = get encLen st k := by
  induction ops with
  | nil => exact fun st _ _ => rfl
  | cons op rest ih =>
    intro st hv ha
    rw [List.foldl_cons,
      ih _ (valid_step encLen hpos cfg st op hv)
        (fun o ho => ha o (List.mem_cons_of_mem _ ho)),
      get_step_avoid encLen hpos cfg st op k hv (ha op (List.mem_cons_self _ _))]

end RunLemmas

section EasyClaims

variable {K V : Type} [DecidableEq K] [DecidableEq V]
variable (encLen : DataFileEntry K V → Nat)

theorem fileidsToMergeGo_mem (cfg : Config)
    (disk : List (Nat × List (DataFileEntry K V))) (stm : List (Nat × LogStatistics))
    (S : List Nat) (f : Nat) (hnd : (stm.map Prod.fst).Nodup)
    (hok : fileidsToMergeGo encLen cfg disk stm = .ok S) :
    f ∈ S ↔ ∃ s seg, alookup stm f = some s ∧ alookup disk f = some seg ∧
      qualifiesB cfg s (segSize encLen seg) = true := by
  induction stm generalizing S with
  | nil =>
    simp only [fileidsToMergeGo] at hok
    injection hok with hok
    subst hok
    simp [alookup]
  | cons hd tl ih =>
    obtain ⟨fileid, s⟩ := hd
    rw [List.map_cons, List.nodup_cons] at hnd
    rw [fileidsToMergeGo] at hok
    rcases hdisk : alookup disk fileid with _ | seg
    · rw [hdisk] at hok
      exact absurd hok (by simp)
    · rw [hdisk] at hok
      simp only at hok
      rcases hrest : fileidsToMergeGo encLen cfg disk tl with e | ids
      all_goals rw [hrest] at hok
      all_goals simp only at hok
      · exact absurd hok (by simp)
      by_cases hq : qualifiesB cfg s (segSize encLen seg) = true
      · rw [if_pos hq] at hok
        injection hok with hok
        subst hok
        by_cases hf : f = fileid
        · subst hf
          simp only [List.mem_cons, true_or, true_iff]
          exact ⟨s, seg, by rw [alookup, if_pos rfl], hdisk, hq⟩
        · have hne : ¬ fileid = f := fun hh => hf hh.symm
          simp only [List.mem_cons, hf, false_or]
          rw [ih _ hnd.2 hrest, alookup, if_neg hne]
      · rw [if_neg hq] at hok
        injection hok with hok
        subst hok
        by_cases hf : f = fileid
        · subst hf
          rw [ih _ hnd.2 hrest]
          constructor
          · rintro ⟨s2, seg2, hs2, hseg2, hq2⟩
            have : f ∈ tl.map Prod.fst := by
              rw [← alookup_isSome_iff_mem_keys, hs2]
              rfl
            exact absurd this hnd.1
          · rintro ⟨s2, seg2, hs2, hseg2, hq2⟩
            rw [alookup, if_pos rfl] at hs2
            injection hs2 with hs2
            subst hs2
            rw [hdisk] at hseg2
            injection hseg2 with hseg2
            subst hseg2
            exact absurd hq2 hq
        · have hne : ¬ fileid = f := fun hh => hf hh.symm
          rw [ih _ hnd.2 hrest, alookup, if_neg hne]

theorem rebuildStep_maxid (d : Dir K V)
    (acc : List (K × KeyDirEntry) × List (Nat × LogStatistics) × Option Nat)
    (fileid : Nat) : (rebuildStep encLen d acc fileid).2.2 = maxStep acc.2.2 fileid := by
  unfold rebuildStep
  rcases alookup d.hints fileid with _ | h1
  · rcases alookup d.disk fileid with _ | h2 <;> rfl
  · rfl

theorem foldl_rebuildStep_maxid (d : Dir K V) (l : List Nat)
    (acc : List (K × KeyDirEntry) × List (Nat × LogStatistics) × Option Nat) :
    (l.foldl (rebuildStep encLen d) acc).2.2 = l.foldl maxStep acc.2.2 := by
  induction l generalizing acc with
  | nil => rfl
  | cons i t ih =>
    rw [List.foldl_cons, List.foldl_cons, ih, rebuildStep_maxid]

theorem foldl_maxStep_some (l : List Nat) (m : Nat) :
    l.foldl maxStep (some m) = some (l.foldl max m) := by
  induction l generalizing m with
  | nil => rfl
  | cons i t ih =>
    rw [List.foldl_cons, List.foldl_cons]
    have h1 : maxStep (some m) i = some (if i > m then i else m) := rfl
    have h2 : (if i > m then i else m) = max m i := by
      by_cases h : i > m
      · rw [if_pos h]
        exact (Nat.max_eq_right (le_of_lt h)).symm
      · rw [if_neg h]
        exact (Nat.max_eq_left (Nat.not_lt.mp h)).symm
    rw [h1, h2, ih]

/-- C8: after recovery from a directory containing segments, the new active
segment id equals the maximum existing segment id plus one; after recovery from
an empty directory, the active segment id is 0. -/
theorem claim8_recovery_active_id (d : Dir K V) :
    (rebuild_storage encLen d).2.2 =
      if sorted_fileids d = [] then 0
      else (sorted_fileids d).foldl max 0 + 1 := by
  rcases hl : sorted_fileids d with _ | ⟨i, t⟩
  · simp [rebuild_storage, hl]
  · have h2 : List.foldl maxStep (none : Option Nat) (i :: t) =
        some (List.foldl max i t) := by
      rw [List.foldl_cons]
      have h0 : maxStep none i = some i := rfl
      rw [h0, foldl_maxStep_some]
    have h1 : (List.foldl (rebuildStep encLen d)
        (([] : List (K × KeyDirEntry)), ([] : List (Nat × LogStatistics)),
          (none : Option Nat)) (i :: t)).2.2 = some (List.foldl max i t) := by
      rw [foldl_rebuildStep_maxid]
      exact h2
    have h4 : max 0 i = i := Nat.max_eq_right (Nat.zero_le i)
    have h5 : List.foldl max 0 (i :: t) = List.foldl max i t := by
      rw [List.foldl_cons, h4]
    rw [List.foldl_cons] at h1
    simp [rebuild_storage, hl, h1, h5]

/-- C10: the reader pool built by `Bitcask::open` always has capacity at least
one, namely `max(concurrency, 1)`; in particular `concurrency = 0` still yields
one reader context, so `Handle::get` can always eventually acquire a reader. -/
theorem claim10_reader_pool_capacity (cfg : Config) :
    1 ≤ reader_pool_capacity cfg ∧
      reader_pool_capacity cfg = max cfg.concurrency 1 := by
  unfold reader_pool_capacity
  by_cases h : cfg.concurrency > 0
  · rw [if_pos h]
    exact ⟨h, (Nat.max_eq_left h).symm⟩
  · rw [if_neg h]
    have h0 : cfg.concurrency = 0 := by omega
    rw [h0]
    exact ⟨by omega, rfl⟩

/-- C9: `put` and `delete` append to disk before touching the KeyDir; when the
disk append fails, the operation surfaces the error and the KeyDir (and the
key's prior mapping) is unchanged.  The last two conjuncts record that the
failure-aware embedding agrees with the plain one on the success path. -/
theorem claim9_append_before_keydir (cfg : Config) (st : Engine K V) (ts : Int)
    (k : K) (v : V) :
    (put_result encLen cfg st ts k v false).2 = .error () ∧
    (put_result encLen cfg st ts k v false).1.keydir = st.keydir ∧
    (delete_result encLen cfg st ts k false).2 = .error () ∧
    (delete_result encLen cfg st ts k false).1.keydir = st.keydir ∧
    (put_result encLen cfg st ts k v true).1 = put encLen cfg st ts k v ∧
    (delete_result encLen cfg st ts k true).1 = (delete encLen cfg st ts k).1 ∧
    (delete_result encLen cfg st ts k true).2 = .ok (delete encLen cfg st ts k).2 := by
  refine ⟨rfl, rfl, rfl, rfl, ?_, ?_, ?_⟩
  · rcases h : (ainsert (write encLen cfg st ts k (some v)).1.keydir k
        (write encLen cfg st ts k (some v)).2).2 with _ | prev <;>
      simp [put_result, put, write_result, h]
  · rcases h : (aremove (write encLen cfg st ts k none).1.keydir k).2 with _ | prev <;>
      simp [delete_result, delete, write_result, h]
  · rcases h : (aremove (write encLen cfg st ts k none).1.keydir k).2 with _ | prev <;>
      simp [delete_result, delete, write_result, h]

/-- C5 counterexample: the merge selection is not filtered against the active
segment.  After a single `put` under a configuration whose small-file threshold
is 100 bytes, the selected set is exactly `[0]`, which contains the currently
active segment id 0. -/
theorem claim5_counterexample :
    stC5.active_fileid = 0 ∧
      fileids_to_merge encLenC cfgSmall stC5 = .ok [stC5.active_fileid] := by
  constructor
  · rfl
  · rfl

theorem qualifiesB_iff (cfg : Config) (s : LogStatistics) (n : Nat) :
    qualifiesB cfg s n = true ↔
      (cfg.merge.thresholds.dead_bytes < s.dead_bytes ∨
       cfg.merge.thresholds.fragmentation < s.fragmentation ∨
       n < cfg.merge.thresholds.small_file) := by
  simp [qualifiesB, Bool.or_eq_true, decide_eq_true_eq, or_assoc]

/-- C5 (amended): when `fileids_to_merge` returns the selected set `S`, a
segment id is in `S` exactly when its statistics entry exists and its
dead bytes exceed the dead-bytes threshold, or its fragmentation exceeds the
fragmentation threshold, or its data file size is below the small-file
threshold.  The currently active segment is *not* excluded: it is selected
whenever it qualifies. -/
theorem claim5_merge_selection (cfg : Config) (st : Engine K V) (S : List Nat)
    (hnd : (st.stats.map Prod.fst).Nodup)
    (hok : fileids_to_merge encLen cfg st = .ok S) (f : Nat) :
    f ∈ S ↔ ∃ s seg, alookup st.stats f = some s ∧ alookup st.disk f = some seg ∧
      (cfg.merge.thresholds.dead_bytes < s.dead_bytes ∨
       cfg.merge.thresholds.fragmentation < s.fragmentation ∨
       segSize encLen seg < cfg.merge.thresholds.small_file) := by
  rw [fileidsToMergeGo_mem encLen cfg st.disk st.stats S f hnd hok]
  constructor
  · rintro ⟨s, seg, h1, h2, h3⟩
    refine ⟨s, seg, h1, h2, ?_⟩
    rw [qualifiesB_iff] at h3
    exact h3
  · rintro ⟨s, seg, h1, h2, h3⟩
    refine ⟨s, seg, h1, h2, ?_⟩
    rw [qualifiesB_iff]
    exact h3

/-- Witness for the amended C5 selection criterion at the concrete state
`stC5`: the hypotheses hold and segment 0 is selected because its single-record
data file is smaller than the 100-byte small-file threshold. -/
theorem claim5_merge_selection_witness :
    (((stC5.stats.map Prod.fst).Nodup ∧
        fileids_to_merge encLenC cfgSmall stC5 = .ok [0]) ∧
      ((0 : Nat) ∈ [0] ↔ ∃ s seg, alookup stC5.stats 0 = some s ∧
        alookup stC5.disk 0 = some seg ∧
        (cfgSmall.merge.thresholds.dead_bytes < s.dead_bytes ∨
         cfgSmall.merge.thresholds.fragmentation < s.fragmentation ∨
         segSize encLenC seg < cfgSmall.merge.thresholds.small_file))) :=
  ⟨⟨by decide, by rfl⟩,
    claim5_merge_selection encLenC cfgSmall stC5 [0] (by decide) (by rfl) 0⟩

/-- The reopened engine for the C2 scenario. -/
def stC2r : Engine Nat Nat := reopen encLenC (close stC2)

/-- C2 (failing input): recovery does not honour tombstones.  For the sequence
`put(1,10); put(1,11); delete(1)` the live engine reports the key absent with
totals live 0 / dead 3, but after close and reopen the key resurrects with
value 11 and the reconstructed totals are live 1 / dead 2 — recovery's data
file replay counts a tombstone as a dead record without removing the key from
the rebuilt KeyDir. -/
theorem claim2_reopen_divergence :
    get encLenC stC2 1 = none ∧
    get encLenC stC2r 1 = some 11 ∧
    totalLive stC2.stats = 0 ∧ totalDead stC2.stats = 3 ∧
    totalLive stC2r.stats = 1 ∧ totalDead stC2r.stats = 2 := by
  refine ⟨by decide, by decide, by decide, by decide, by decide, by decide⟩

theorem write_stats_put (cfg : Config) (st : Engine K V) (ts : Int) (k : K) (v : V) :
    (write encLen cfg st ts k (some v)).1.stats =
      amodify st.stats st.active_fileid LogStatistics.init LogStatistics.add_live := by
  rw [write_stats]
  have hfun : (fun s : LogStatistics =>
      if (some v : Option V).isSome then s.add_live
      else s.add_dead (encLen ⟨ts, k, some v⟩)) = LogStatistics.add_live := by
    funext s
    simp
  rw [hfun]

/-- C1: for every sequence of put and delete operations containing `put(k,v)`
with no later `delete(k)` or `put(k,_)`, a subsequent `get(k)` returns `v`. -/
theorem claim1_read_after_write (hpos : ∀ q : DataFileEntry K V, 0 < encLen q)
    (cfg : Config) (ops ops2 : List (Op K V)) (ts : Int) (k : K) (v : V)
    (h1 : ∀ op ∈ ops, isPutDel op)
    (h2 : ∀ op ∈ ops2, isPutDel op ∧ avoidsKey k op) :
    get encLen (run encLen cfg (ops ++ Op.putOp ts k v :: ops2)) k = some v := by
  have hv0 : Valid encLen (ops.foldl (step encLen cfg) init) :=
    valid_foldl encLen hpos cfg ops init (valid_init encLen)
  have hput : Valid encLen
      (step encLen cfg (ops.foldl (step encLen cfg) init) (Op.putOp ts k v)) :=
    valid_step encLen hpos cfg _ _ hv0
  show get encLen ((ops ++ Op.putOp ts k v :: ops2).foldl (step encLen cfg) init) k =
    some v
  rw [List.foldl_append, List.foldl_cons]
  rw [get_foldl_avoid encLen hpos cfg ops2 k _ hput (fun op hop => (h2 op hop).2)]
  exact get_put_self encLen hpos cfg _ ts k v

/-- Witness for C1 at a concrete input: after `put(2,9); put(1,10); put(3,7);
delete(2)` the key 1 still reads 10. -/
theorem claim1_witness :
    ((∀ q : DataFileEntry Nat Nat, 0 < encLenC q) ∧
      (∀ op ∈ ([Op.putOp 0 2 9] : List (Op Nat Nat)), isPutDel op) ∧
      (∀ op ∈ ([Op.putOp 0 3 7, Op.delOp 0 2] : List (Op Nat Nat)),
        isPutDel op ∧ avoidsKey 1 op)) ∧
    get encLenC (run encLenC cfgC
      ([Op.putOp 0 2 9] ++ Op.putOp 0 1 10 :: [Op.putOp 0 3 7, Op.delOp 0 2])) 1 =
      some 10 :=
  ⟨⟨fun _ => Nat.one_pos, by simp [isPutDel], by simp [isPutDel, avoidsKey]⟩,
    claim1_read_after_write encLenC (fun _ => Nat.one_pos) cfgC
      [Op.putOp 0 2 9] [Op.putOp 0 3 7, Op.delOp 0 2] 0 1 10
      (by simp [isPutDel]) (by simp [isPutDel, avoidsKey])⟩

/-- C4: after any sequence of operations, deleting a live key returns true and
a subsequent get returns absent; deleting a key that is not live returns
false. -/
theorem claim4_read_after_delete (hpos : ∀ q : DataFileEntry K V, 0 < encLen q)
    (cfg : Config) (ops : List (Op K V)) (ts : Int) (k : K) :
    ((get encLen (run encLen cfg ops) k).isSome = true →
      (delete encLen cfg (run encLen cfg ops) ts k).2 = true ∧
      get encLen (delete encLen cfg (run encLen cfg ops) ts k).1 k = none) ∧
    ((get encLen (run encLen cfg ops) k).isSome = false →
      (delete encLen cfg (run encLen cfg ops) ts k).2 = false) := by
  have hv := valid_run encLen hpos cfg ops
  have hiff := get_isSome_iff encLen (run encLen cfg ops) k hv.1
  have hsnd := delete_snd_eq encLen cfg (run encLen cfg ops) ts k
  constructor
  · intro h
    refine ⟨?_, ?_⟩
    · rw [hsnd, ← hiff, h]
    · exact get_delete_self encLen cfg _ ts k hv.1.kd_nodup
  · intro h
    rw [hsnd, ← hiff, h]

/-- Witness for C4 at a concrete input: after `put(1,10)`, key 1 is live,
`delete(1)` returns true and the key then reads absent. -/
theorem claim4_witness :
    ((∀ q : DataFileEntry Nat Nat, 0 < encLenC q) ∧
      (get encLenC (run encLenC cfgC [Op.putOp 0 1 10]) 1).isSome = true) ∧
    ((delete encLenC cfgC (run encLenC cfgC [Op.putOp 0 1 10]) 5 1).2 = true ∧
      get encLenC (delete encLenC cfgC (run encLenC cfgC [Op.putOp 0 1 10]) 5 1).1 1 =
        none) :=
  ⟨⟨fun _ => Nat.one_pos, by decide⟩,
    (claim4_read_after_delete encLenC (fun _ => Nat.one_pos) cfgC
      [Op.putOp 0 1 10] 5 1).1 (by decide)⟩

/-- C6: over the lifetime of an engine instance, the segment ids for which
files are created — the initial active file, every write-triggered rollover,
every merge-output file and the post-merge active file, recorded in order in
the ghost list `used` — form a strictly increasing sequence; in particular
merge outputs never collide with any previously used id. -/
theorem claim6_rollover_monotonic (hpos : ∀ q : DataFileEntry K V, 0 < encLen q)
    (cfg : Config) (ops : List (Op K V)) :
    List.Chain' (· < ·) (run encLen cfg ops).used :=
  (valid_run encLen hpos cfg ops).1.used_chain

/-- Witness for C6 at a concrete input: two rollover-forcing puts followed by a
merge allocate the strictly increasing id sequence 0,1,2,3,4,5,6. -/
theorem claim6_witness :
    ((∀ q : DataFileEntry Nat Nat, 0 < encLenC q) ∧
      (run encLenC cfgTiny [Op.putOp 0 1 10, Op.putOp 0 2 20, Op.mergeOp]).used =
        [0, 1, 2, 3, 4, 5, 6]) ∧
    List.Chain' (· < ·)
      (run encLenC cfgTiny [Op.putOp 0 1 10, Op.putOp 0 2 20, Op.mergeOp]).used :=
  ⟨⟨fun _ => Nat.one_pos, by decide⟩,
    claim6_rollover_monotonic encLenC (fun _ => Nat.one_pos) cfgTiny
      [Op.putOp 0 1 10, Op.putOp 0 2 20, Op.mergeOp]⟩

/-- C7: after `put(k,v1)` then `put(k,v2)` from any reachable state, the total
live keys over all segment statistics are unchanged, total dead keys grow by
exactly one, and total dead bytes grow by exactly the on-disk length of the v1
record. -/
theorem claim7_overwrite_stats (hpos : ∀ q : DataFileEntry K V, 0 < encLen q)
    (cfg : Config) (ops : List (Op K V)) (ts1 ts2 : Int) (k : K) (v1 v2 : V) :
    totalLive (put encLen cfg (put encLen cfg (run encLen cfg ops) ts1 k v1)
        ts2 k v2).stats =
      totalLive (put encLen cfg (run encLen cfg ops) ts1 k v1).stats ∧
    totalDead (put encLen cfg (put encLen cfg (run encLen cfg ops) ts1 k v1)
        ts2 k v2).stats =
      totalDead (put encLen cfg (run encLen cfg ops) ts1 k v1).stats + 1 ∧
    totalDeadBytes (put encLen cfg (put encLen cfg (run encLen cfg ops) ts1 k v1)
        ts2 k v2).stats =
      totalDeadBytes (put encLen cfg (run encLen cfg ops) ts1 k v1).stats +
        encLen ⟨ts1, k, some v1⟩ := by
  have hv0 := valid_run encLen hpos cfg ops
  have hv1 : Valid encLen (put encLen cfg (run encLen cfg ops) ts1 k v1) :=
    ⟨validCore_put encLen hpos cfg _ ts1 k v1 hv0.1,
      liveCountOk_put encLen cfg _ ts1 k v1 hv0.2⟩
  have hprev : alookup (put encLen cfg (run encLen cfg ops) ts1 k v1).keydir k =
      some (write encLen cfg (run encLen cfg ops) ts1 k (some v1)).2 := by
    rw [put_keydir, alookup_ainsert_self]
  have hstats2 : (put encLen cfg (put encLen cfg (run encLen cfg ops) ts1 k v1)
      ts2 k v2).stats =
      amodify (write encLen cfg (put encLen cfg (run encLen cfg ops) ts1 k v1)
          ts2 k (some v2)).1.stats
        (write encLen cfg (run encLen cfg ops) ts1 k (some v1)).2.fileid
        LogStatistics.init
        (fun s => s.overwrite
          (write encLen cfg (run encLen cfg ops) ts1 k (some v1)).2.len) := by
    rw [put_eq, hprev]
  have hfid : (write encLen cfg (run encLen cfg ops) ts1 k (some v1)).2.fileid =
      (run encLen cfg ops).active_fileid := by
    rw [write_snd]
  have hlen : (write encLen cfg (run encLen cfg ops) ts1 k (some v1)).2.len =
      encLen ⟨ts1, k, some v1⟩ := by
    rw [write_snd]
  have hWs := write_stats_put encLen cfg
    (put encLen cfg (run encLen cfg ops) ts1 k v1) ts2 k v2
  have hW_live : totalLive (write encLen cfg
      (put encLen cfg (run encLen cfg ops) ts1 k v1) ts2 k (some v2)).1.stats =
      totalLive (put encLen cfg (run encLen cfg ops) ts1 k v1).stats + 1 := by
    rw [hWs]
    exact totalLive_amodify_add_live _ _
  have hW_dead : totalDead (write encLen cfg
      (put encLen cfg (run encLen cfg ops) ts1 k v1) ts2 k (some v2)).1.stats =
      totalDead (put encLen cfg (run encLen cfg ops) ts1 k v1).stats := by
    rw [hWs]
    exact totalDead_amodify_add_live _ _
  have hW_db : totalDeadBytes (write encLen cfg
      (put encLen cfg (run encLen cfg ops) ts1 k v1) ts2 k (some v2)).1.stats =
      totalDeadBytes (put encLen cfg (run encLen cfg ops) ts1 k v1).stats := by
    rw [hWs]
    exact totalDeadBytes_amodify_add_live _ _
  have hsub : 1 ≤ statLive (write encLen cfg
      (put encLen cfg (run encLen cfg ops) ts1 k v1) ts2 k (some v2)).1.stats
      (write encLen cfg (run encLen cfg ops) ts1 k (some v1)).2.fileid := by
    have h1 := statLive_write_put encLen cfg
      (put encLen cfg (run encLen cfg ops) ts1 k v1) ts2 k v2
      (write encLen cfg (run encLen cfg ops) ts1 k (some v1)).2.fileid
    have h2 := hv1.2 (write encLen cfg (run encLen cfg ops) ts1 k (some v1)).2.fileid
    have h3 := liveCount_pos_of_mem
      (put encLen cfg (run encLen cfg ops) ts1 k v1).keydir k
      (write encLen cfg (run encLen cfg ops) ts1 k (some v1)).2
      (alookup_mem _ _ _ hprev)
    omega
  have hov_live := totalLive_amodify_overwrite (write encLen cfg
      (put encLen cfg (run encLen cfg ops) ts1 k v1) ts2 k (some v2)).1.stats
    (write encLen cfg (run encLen cfg ops) ts1 k (some v1)).2.fileid
    (write encLen cfg (run encLen cfg ops) ts1 k (some v1)).2.len hsub
  have hov_dead := totalDead_amodify_overwrite (write encLen cfg
      (put encLen cfg (run encLen cfg ops) ts1 k v1) ts2 k (some v2)).1.stats
    (write encLen cfg (run encLen cfg ops) ts1 k (some v1)).2.fileid
    (write encLen cfg (run encLen cfg ops) ts1 k (some v1)).2.len
  have hov_db := totalDeadBytes_amodify_overwrite (write encLen cfg
      (put encLen cfg (run encLen cfg ops) ts1 k v1) ts2 k (some v2)).1.stats
    (write encLen cfg (run encLen cfg ops) ts1 k (some v1)).2.fileid
    (write encLen cfg (run encLen cfg ops) ts1 k (some v1)).2.len
  refine ⟨?_, ?_, ?_⟩
  · rw [hstats2]
    omega
  · rw [hstats2]
    omega
  · rw [hstats2, hov_db, hW_db, hlen]

/-- Witness for C7 at a concrete input: overwriting key 1 keeps one live key,
adds one dead key, and adds the one-byte length of the first record. -/
theorem claim7_witness :
    (∀ q : DataFileEntry Nat Nat, 0 < encLenC q) ∧
    (totalLive (put encLenC cfgC (put encLenC cfgC (run encLenC cfgC []) 0 1 10)
        1 1 11).stats =
      totalLive (put encLenC cfgC (run encLenC cfgC []) 0 1 10).stats ∧
    totalDead (put encLenC cfgC (put encLenC cfgC (run encLenC cfgC []) 0 1 10)
        1 1 11).stats =
      totalDead (put encLenC cfgC (run encLenC cfgC []) 0 1 10).stats + 1 ∧
    totalDeadBytes (put encLenC cfgC (put encLenC cfgC (run encLenC cfgC []) 0 1 10)
        1 1 11).stats =
      totalDeadBytes (put encLenC cfgC (run encLenC cfgC []) 0 1 10).stats +
        encLenC ⟨0, 1, some 10⟩) :=
  ⟨fun _ => Nat.one_pos,
    claim7_overwrite_stats encLenC (fun _ => Nat.one_pos) cfgC [] 0 1 1 10 11⟩

/-- C3: running a merge at any reachable state succeeds, leaves `get`
unchanged for every live key, removes every selected segment id from the
statistics and removes its data and hint files from disk, and repoints every
KeyDir entry that previously pointed into the selected set into a merge-output
segment (an id strictly between the old and the new active id). -/
theorem claim3_merge_preserves (hpos : ∀ q : DataFileEntry K V, 0 < encLen q)
    (cfg : Config) (ops : List (Op K V)) :
    ∃ S st2, fileids_to_merge encLen cfg (run encLen cfg ops) = .ok S ∧
      merge encLen cfg (run encLen cfg ops) = .ok st2 ∧
      (∀ k, (get encLen (run encLen cfg ops) k).isSome = true →
        get encLen st2 k = get encLen (run encLen cfg ops) k) ∧
      (∀ f ∈ S, alookup st2.stats f = none ∧ alookup st2.disk f = none ∧
        alookup st2.hints f = none) ∧
      (∀ k e, alookup (run encLen cfg ops).keydir k = some e → e.fileid ∈ S →
        ∃ e2, alookup st2.keydir k = some e2 ∧
          (run encLen cfg ops).active_fileid < e2.fileid ∧
          e2.fileid < st2.active_fileid) := by
  have hv := valid_run encLen hpos cfg ops
  obtain ⟨S, st2, hSok, hm, _, _, _, hget, hrm, hrp⟩ :=
    merge_spec encLen hpos cfg _ hv.1 hv.2
  exact ⟨S, st2, hSok, hm, fun k _ => hget k, hrm, hrp⟩

/-- Witness for C3 at a concrete input: merging after a single put. -/
theorem claim3_witness :
    (∀ q : DataFileEntry Nat Nat, 0 < encLenC q) ∧
    (∃ S st2, fileids_to_merge encLenC cfgSmall (run encLenC cfgSmall
        [Op.putOp 0 5 7]) = .ok S ∧
      merge encLenC cfgSmall (run encLenC cfgSmall [Op.putOp 0 5 7]) = .ok st2 ∧
      (∀ k, (get encLenC (run encLenC cfgSmall [Op.putOp 0 5 7]) k).isSome = true →
        get encLenC st2 k = get encLenC (run encLenC cfgSmall [Op.putOp 0 5 7]) k) ∧
      (∀ f ∈ S, alookup st2.stats f = none ∧ alookup st2.disk f = none ∧
        alookup st2.hints f = none) ∧
      (∀ k e, alookup (run encLenC cfgSmall [Op.putOp 0 5 7]).keydir k = some e →
        e.fileid ∈ S →
        ∃ e2, alookup st2.keydir k = some e2 ∧
          (run encLenC cfgSmall [Op.putOp 0 5 7]).active_fileid < e2.fileid ∧
          e2.fileid < st2.active_fileid)) :=
  ⟨fun _ => Nat.one_pos,
    claim3_merge_preserves encLenC (fun _ => Nat.one_pos) cfgSmall [Op.putOp 0 5 7]⟩

end EasyClaims

end Bitcask
